import Mathlib

/-!
Verification development for the financial-forensic-engine repository.

The definitions below are shallow embeddings of the TypeScript sources:
`src/lib/graph.ts`, `src/lib/detect/cycles.ts`, `src/lib/detect/shellChains.ts`
(which also contains the smurfing detector), `src/lib/score.ts` (which also
contains the output assembler) and the pipeline wiring in
`src/app/api/analyze/route.ts`.  JavaScript numbers are modelled as exact
rationals, epoch timestamps as integers, JS `Map`/`Set` insertion-order
semantics as association lists / first-occurrence-deduplicated lists.
-/

set_option allowUnsafeReducibility true

attribute [semireducible] Rat.mul Rat.inv Rat.add Rat.sub

set_option maxRecDepth 4000000

namespace FFE

/-- `Math.max(lo, Math.min(hi, n))` with `lo = 0`, `hi = 100` (the `clamp`
helper repeated in each source file). -/
def clamp (n : ℚ) : ℚ := max 0 (min 100 n)

/-- `Number(x.toFixed(1))`: round to one decimal, ties away from the smaller
value (JS `toFixed` picks the larger candidate on ties). -/
def roundTo1 (x : ℚ) : ℚ := (round (10 * x) : ℤ) / 10

/-- `Number(x.toFixed(3))`: round to three decimals. -/
def roundTo3 (x : ℚ) : ℚ := (round (1000 * x) : ℤ) / 1000

/-- Lexicographic strict comparison of char lists (JS compares strings by
code units; for the BMP code points used here the two orders agree). -/
def charListLtb : List Char → List Char → Bool
  | [], [] => false
  | [], _ :: _ => true
  | _ :: _, [] => false
  | a :: as, b :: bs => if a < b then true else if b < a then false else charListLtb as bs

/-- JS `a < b` on strings. -/
def strLt (a b : String) : Prop := charListLtb a.data b.data = true

/-- JS `a <= b` on strings (the total order used by `sort()` and as the
model of `localeCompare`-based tie-breaks). -/
def strLe (a b : String) : Prop := charListLtb b.data a.data = false

instance : DecidableRel strLt := fun a b => by unfold strLt; infer_instance

instance : DecidableRel strLe := fun a b => by unfold strLe; infer_instance

/-- One step of building a JS `Set`: `if (!seen.has(x)) { seen.add(x) }`,
keeping insertion order. -/
def insertOnce (acc : List String) (x : String) : List String :=
  if x ∈ acc then acc else acc ++ [x]

/-- JS `Set` built by repeated `add`: keep the first occurrence of each
element, preserving order (also the `uniqPreserveOrder` helper of
`src/lib/output.ts`). -/
def dedupFirst (l : List String) : List String := l.foldl insertOnce []

/-- `[...strings].sort()`: ascending lexicographic sort of strings
(stable, though for the string sorts in this code stability is moot). -/
def sortStr (l : List String) : List String := l.insertionSort strLe

/-- `[...nums].sort((x, y) => x - y)`: ascending numeric sort. -/
def sortRat (l : List ℚ) : List ℚ := l.insertionSort (· ≤ ·)

/-- `xs.join(sep)`. -/
def joinSep (sep : String) : List String → String
  | [] => ""
  | [x] => x
  | x :: xs => x ++ sep ++ joinSep sep xs

/-- A parsed transaction (`Tx` of `src/lib/parse.ts`): sender, receiver,
amount, epoch-second timestamp.  The optional transaction id plays no role
in the analysis pipeline and is omitted. -/
structure Tx where
  sender_id : String
  receiver_id : String
  amount : ℚ
  t : ℤ
deriving DecidableEq, Repr

instance : Inhabited Tx := ⟨⟨"", "", 0, 0⟩⟩

/-- `tx.t`-ascending stable sort (JS `arr.sort((a, b) => a.t - b.t)`). -/
def sortByT (l : List Tx) : List Tx := l.insertionSort (fun a b => a.t ≤ b.t)

/-- The graph of `src/lib/graph.ts`.  Maps whose entries are only ever
looked up by key are modelled as functions; `nodes` keeps JS `Set`
insertion order because the smurfing detector iterates it. -/
structure Graph where
  nodes : List String
  outNeighbors : String → List String
  inNeighbors : String → List String
  txIn : String → List Tx
  txOut : String → List Tx
  edgeTx : String → List Tx
  degreeTotal : String → ℕ

/-- ``edgeKey(a, b) = `${a}|${b}` ``. -/
def edgeKey (a b : String) : String := a ++ "|" ++ b

/-- `buildGraph` of `src/lib/graph.ts`: per-node and per-edge transaction
lists (time-ascending, stable), adjacency in first-insertion order and
total degree = incident-transaction count. -/
def buildGraph (txs : List Tx) : Graph where
  nodes := dedupFirst (txs.flatMap (fun tx => [tx.sender_id, tx.receiver_id]))
  outNeighbors := fun a =>
    dedupFirst ((txs.filter (fun tx => tx.sender_id = a)).map (·.receiver_id))
  inNeighbors := fun a =>
    dedupFirst ((txs.filter (fun tx => tx.receiver_id = a)).map (·.sender_id))
  txIn := fun a => sortByT (txs.filter (fun tx => tx.receiver_id = a))
  txOut := fun a => sortByT (txs.filter (fun tx => tx.sender_id = a))
  edgeTx := fun k => sortByT (txs.filter (fun tx => edgeKey tx.sender_id tx.receiver_id = k))
  degreeTotal := fun a =>
    (txs.filter (fun tx => tx.sender_id = a)).length
      + (txs.filter (fun tx => tx.receiver_id = a)).length

/-- `RingCandidate` of `src/lib/output.ts`. -/
structure RingCandidate where
  pattern_type : String
  member_accounts : List String
  risk_score : ℚ
deriving DecidableEq, Repr

/-! ### Cycle detector (`src/lib/detect/cycles.ts`) -/

/-- One left rotation by `s`. -/
def rotateBy (s : ℕ) (l : List String) : List String := l.drop s ++ l.take s

/-- `canonicalCycle`: the rotation minimizing the `"|"`-joined string,
scanning rotations `1 … n-1` and replacing only on strict decrease. -/
def canonicalCycle (nodes : List String) : List String :=
  (List.range nodes.length).foldl
    (fun best s =>
      if s = 0 then best
      else
        let rot := rotateBy s nodes
        if strLt (joinSep "|" rot) (joinSep "|" best) then rot else best)
    nodes

/-- `cycleRisk`: base by length plus temporal-tightness bonus, clamped. -/
def cycleRisk (len : ℕ) (spanSeconds : ℤ) : ℚ :=
  let base : ℚ := if len = 3 then 893 / 10 else if len = 4 then 877 / 10 else 85
  let hours : ℚ := (spanSeconds : ℚ) / 3600
  let bonus : ℚ := if hours ≤ 1 then 10 else if hours ≤ 6 then 6 else if hours ≤ 24 then 3 else 0
  clamp (base + bonus)

/-- Accumulated state of the cycle detector: candidate rings, flat
evidence pairs `(account, tag)` and the set of canonical keys already
emitted. -/
structure CycState where
  rings : List RingCandidate
  evidence : List (String × String)
  dedupKeys : List String
deriving Repr

/-- Temporal span of a cycle: fold over consecutive edges accumulating the
first-tx minimum (`+∞` sentinel modelled by `Option`) and last-tx maximum
(initialized to `0` as in the source). -/
def cycleSpan (g : Graph) (cyc : List String) : ℤ :=
  let scan := (List.range cyc.length).foldl
    (fun (acc : Option ℤ × ℤ) i =>
      let a := cyc.getD i ""
      let b := cyc.getD ((i + 1) % cyc.length) ""
      match g.edgeTx (edgeKey a b) with
      | [] => acc
      | tx0 :: tl =>
        let first := tx0.t
        let last := ((tx0 :: tl).getLast (List.cons_ne_nil _ _)).t
        (some (match acc.1 with | none => first | some m => min m first), max acc.2 last))
    (none, 0)
  match scan.1 with
  | none => 0
  | some m => max 0 (scan.2 - m)

/-- The body run when the DFS closes a cycle (`v === start`, depth in
`[3,5]`): canonicalize, dedup by joined key, record ring and evidence. -/
def cycClose (g : Graph) (path : List String) (st : CycState) : CycState :=
  if joinSep "|" (canonicalCycle path) ∈ st.dedupKeys then st
  else
    { rings := st.rings ++
        [{ pattern_type := "cycle"
           member_accounts := sortStr (canonicalCycle path)
           risk_score := cycleRisk (canonicalCycle path).length
             (cycleSpan g (canonicalCycle path)) }]
      evidence := st.evidence ++
        ((canonicalCycle path).map
          (fun a => (a, "cycle_length_" ++ toString (canonicalCycle path).length)))
          ++ ((canonicalCycle path).map (fun a => (a, "cycle")))
      dedupKeys := st.dedupKeys ++ [joinSep "|" (canonicalCycle path)] }

/-- The recursive DFS of `detectCycles35`.  `fuel` only bounds recursion
depth for Lean's sake; the source's own guard `depth > 5` makes the `0`
case unreachable when started with fuel 6. -/
def cycDfs (g : Graph) (start : String) (rank : String → Option ℕ) (startIdx : ℕ) :
    ℕ → String → ℕ → List String → List String → CycState → CycState
  | 0, _, _, _, _, st => st
  | fuel + 1, u, depth, path, visited, st =>
    if 5 < depth then st
    else
      (g.outNeighbors u).foldl
        (fun acc v =>
          match rank v with
          | none => acc
          | some vi =>
            if vi < startIdx then acc
            else if v = start then
              if 3 ≤ depth ∧ depth ≤ 5 then cycClose g path acc else acc
            else if v ∈ visited then acc
            else cycDfs g start rank startIdx fuel v (depth + 1) (path ++ [v]) (v :: visited) acc)
        st

/-- Rank of a node = its index in the sorted node list; `new Map` keeps the
last binding on duplicate keys, hence the last matching index. -/
def lastIdxOf (ns : List String) (v : String) : Option ℕ :=
  (ns.enum.filter (fun p => p.2 = v)).getLast?.map (·.1)

/-- `detectCycles35` of `src/lib/detect/cycles.ts`. -/
def detectCycles35 (g : Graph) : CycState :=
  let ns := sortStr g.nodes
  let rank := lastIdxOf ns
  ns.foldl
    (fun st start =>
      let startIdx := (rank start).getD 0
      cycDfs g start rank startIdx 6 start 1 [start] [start] st)
    { rings := [], evidence := [], dedupKeys := [] }

/-! ### Ring merger (`src/lib/rings/merge.ts`, second half of `cycles.ts`) -/

/-- `jaccard(a, b)` on the deduplicated member lists (JS `Set`s). -/
def jaccard (a b : List String) : ℚ :=
  let da := dedupFirst a
  let db := dedupFirst b
  let inter := (da.filter (fun x => x ∈ db)).length
  let uni := da.length + db.length - inter
  if uni = 0 then 0 else (inter : ℚ) / (uni : ℚ)

/-- The consumption test of `mergeRings`: same pattern type and Jaccard
similarity of member sets at least `J` (`js >= J`). -/
def absorbs (J : ℚ) (base r : RingCandidate) : Bool :=
  base.pattern_type = r.pattern_type ∧ J ≤ jaccard base.member_accounts r.member_accounts

/-- `if (r.risk_score > bestRisk) { bestRisk = ...; bestMembers = ...; }`
folded over the consumed rings, starting from the base. -/
def bestOf (base : RingCandidate) (consumed : List RingCandidate) : RingCandidate :=
  consumed.foldl (fun b r => if b.risk_score < r.risk_score then r else b) base

/-- The recursion of `mergeRings`, made structural on a fuel bounded
below by the list length (the scan always strictly shrinks the list). -/
def mergeRingsAux (J : ℚ) : ℕ → List RingCandidate → List RingCandidate
  | 0, _ => []
  | _, [] => []
  | fuel + 1, base :: rest =>
    { base with
        member_accounts := (bestOf base (rest.filter (absorbs J base))).member_accounts
        risk_score := (bestOf base (rest.filter (absorbs J base))).risk_score }
      :: mergeRingsAux J fuel (rest.filter (fun r => ! absorbs J base r))

/-- `mergeRings` of the ring merger: for each yet-unconsumed ring, consume
all later rings of the same pattern whose member-set Jaccard is `≥ J`
(each tested against the base's original member set), and emit the base
with the members and risk of the highest-risk ring of the group. -/
def mergeRings (rings : List RingCandidate) (J : ℚ) : List RingCandidate :=
  mergeRingsAux J rings.length rings

/-- The greedy merge classes underlying `mergeRings`: each class is the
base ring followed by the rings it consumed, in input order. -/
def mergeClassesAux (J : ℚ) : ℕ → List RingCandidate → List (List RingCandidate)
  | 0, _ => []
  | _, [] => []
  | fuel + 1, base :: rest =>
    (base :: rest.filter (absorbs J base))
      :: mergeClassesAux J fuel (rest.filter (fun r => ! absorbs J base r))

/-- The merge classes of a whole ring list. -/
def mergeClasses (rings : List RingCandidate) (J : ℚ) : List (List RingCandidate) :=
  mergeClassesAux J rings.length rings

/-- The representative a merge class contributes to `mergeRings`' output. -/
def classRepr (cls : List RingCandidate) : RingCandidate :=
  match cls with
  | [] => { pattern_type := "", member_accounts := [], risk_score := 0 }
  | base :: consumed =>
    { base with
        member_accounts := (bestOf base consumed).member_accounts
        risk_score := (bestOf base consumed).risk_score }

/-! ### Shell-chain detector (first half of `src/lib/detect/shellChains.ts`) -/

/-- `chainRisk`: base grows with hop count, plus tightness bonus, clamped. -/
def chainRisk (hops : ℕ) (spanSeconds : ℤ) : ℚ :=
  let base : ℚ := 78 + (7 / 2) * ((hops : ℚ) - 3)
  let hours : ℚ := (spanSeconds : ℚ) / 3600
  let bonus : ℚ := if hours ≤ 2 then 10 else if hours ≤ 12 then 6 else if hours ≤ 48 then 3 else 0
  clamp (base + bonus)

/-- `median` of a list of amounts (0 when empty): numeric sort, middle
element or mean of the two middle elements. -/
def median (nums : List ℚ) : ℚ :=
  if nums.length = 0 then 0
  else
    let a := sortRat nums
    let mid := a.length / 2
    if a.length % 2 = 1 then a.getD mid 0 else (a.getD (mid - 1) 0 + a.getD mid 0) / 2

/-- `edgeMedianAmount`: median amount on an edge (0 for a missing edge). -/
def edgeMedianAmount (g : Graph) (a b : String) : ℚ :=
  median ((g.edgeTx (edgeKey a b)).map (·.amount))

/-- Membership in the low-activity shell set: total degree in `[2,3]`
(the `low` set built from `graph.degreeTotal`). -/
def isLow (g : Graph) (n : String) : Bool :=
  2 ≤ g.degreeTotal n ∧ g.degreeTotal n ≤ 3

/-- The edge walk of the shell-chain acceptance test: first-tx timestamps
must not step back more than one hour nor jump more than 24 hours, and
neighboring positive median amounts must stay within ratio 1.35; returns
the accumulated `(min first-tx, max last-tx)` on success. -/
def edgeWalk (g : Graph) : String → List String → Option ℤ → Option ℚ →
    Option ℤ → ℤ → Option (Option ℤ × ℤ)
  | _, [], _, _, minT, maxT => some (minT, maxT)
  | a, b :: tl, prevT, prevAmt, minT, maxT =>
    match g.edgeTx (edgeKey a b) with
    | [] => none
    | tx0 :: arrTl =>
      let arr := tx0 :: arrTl
      let edgeT := tx0.t
      let amt := edgeMedianAmount g a b
      let minT' := some (match minT with | none => edgeT | some m => min m edgeT)
      let maxT' := max maxT (arr.getLast (List.cons_ne_nil _ _)).t
      let tOk : Bool := match prevT with
        | none => true
        | some pt => decide (¬ (edgeT + 3600 < pt) ∧ |edgeT - pt| ≤ 24 * 3600)
      let aOk : Bool := match prevAmt with
        | none => true
        | some pa =>
          if 0 < amt ∧ 0 < pa then
            decide ((if pa < amt then amt / pa else pa / amt) ≤ 27 / 20)
          else true
      if tOk && aOk then edgeWalk g b tl (some edgeT) (some amt) minT' maxT'
      else none

/-- The full acceptance test for a candidate chain `path` (run when the
edge depth reaches 3): all intermediates low-activity with single-in /
single-out adjacency, and the edge walk succeeds; returns the chain span. -/
def chainAccept (g : Graph) (path : List String) : Option ℤ :=
  if (List.range path.length).all (fun i =>
      if 1 ≤ i ∧ i ≤ path.length - 2 then
        isLow g (path.getD i "") ∧ (g.inNeighbors (path.getD i "")).length = 1
          ∧ (g.outNeighbors (path.getD i "")).length = 1
      else true) then
    match path with
    | [] => none
    | a :: rest =>
      match edgeWalk g a rest none none none 0 with
      | none => none
      | some (minTOpt, maxT) =>
        match minTOpt with
        | none => some 0
        | some m => some (max 0 (maxT - m))
  else none

/-- Accumulated state of the shell-chain detector.  `found` counts the
accepted paths of the current start node; `dedupKeys` holds the global
path signatures. -/
structure ShellState where
  rings : List RingCandidate
  evidence : List (String × String)
  dedupKeys : List String
  found : ℕ
deriving Repr

/-- Evidence tags attached to an accepted chain, in source order. -/
def shellEvidence (path : List String) : List (String × String) :=
  let n := path.length
  [(path.getD 0 "", "layered_shell_chain"), (path.getD 0 "", "source_funds")]
    ++ ((List.range n).filterMap (fun i =>
        if 1 ≤ i ∧ i ≤ n - 3 then some (path.getD i "", "layered_shell_chain") else none))
    ++ ((List.range n).filterMap (fun i =>
        if 1 ≤ i ∧ i ≤ n - 3 then some (path.getD i "", "low_activity_shell") else none))
    ++ [(path.getD (n - 2) "", "layered_shell_chain"), (path.getD (n - 2) "", "pre_cashout")]
    ++ [(path.getD (n - 1) "", "layered_shell_chain"), (path.getD (n - 1) "", "cash_out")]

/-- Acceptance attempt at edge depth `≥ 3`: run the checks and, on a new
path signature, record ring, evidence and bump `found`. -/
def shellTry (g : Graph) (path : List String) (nextDepth : ℕ) (st : ShellState) : ShellState :=
  match chainAccept g path with
  | none => st
  | some span =>
    if "layered_shell|" ++ joinSep "->" path ∈ st.dedupKeys then st
    else
      { rings := st.rings ++
          [{ pattern_type := "layered_shell"
             member_accounts := path
             risk_score := roundTo1 (chainRisk nextDepth span) }]
        evidence := st.evidence ++ shellEvidence path
        dedupKeys := st.dedupKeys ++ ["layered_shell|" ++ joinSep "->" path]
        found := st.found + 1 }

/-- The recursive DFS of `detectShellChains` (paths capped at 25 per
start, depth capped at 6 edges, low-activity guard on the first hop). -/
def shellDfs (g : Graph) : ℕ → String → ℕ → List String → List String → ShellState → ShellState
  | 0, _, _, _, _, st => st
  | fuel + 1, u, depthEdges, path, visited, st =>
    if 25 ≤ st.found then st
    else if 6 < depthEdges then st
    else
      (g.outNeighbors u).foldl
        (fun acc v =>
          if 25 ≤ acc.found then acc
          else if v ∈ visited then acc
          else if depthEdges + 1 < 2 ∧ ¬ isLow g v then acc
          else
            shellDfs g fuel v (depthEdges + 1) (path ++ [v]) (v :: visited)
              (if 3 ≤ depthEdges + 1 then shellTry g (path ++ [v]) (depthEdges + 1) acc
               else acc))
        st

/-- `detectShellChains` of `src/lib/detect/shellChains.ts`. -/
def detectShellChains (g : Graph) : ShellState :=
  let ns := sortStr g.nodes
  ns.foldl
    (fun st start =>
      shellDfs g 8 start 0 [start] [start] { st with found := 0 })
    { rings := [], evidence := [], dedupKeys := [], found := 0 }

/-! ### Smurfing detector (second half of `src/lib/detect/shellChains.ts`) -/

/-- `WINDOW_SEC = 72 * 3600`. -/
def WINDOW_SEC : ℤ := 72 * 3600

/-- `MIN_UNIQUE = 10`. -/
def MIN_UNIQUE : ℕ := 10

/-- `amountConsistency`: 0 for fewer than 6 amounts, otherwise the
fraction of amounts within `max(1, median·tol)` of the median. -/
def amountConsistency (amounts : List ℚ) (tol : ℚ) : ℚ :=
  if amounts.length < 6 then 0
  else
    (((amounts.filter
      (fun x => |x - median amounts| ≤ max 1 (median amounts * tol))).length : ℚ)
      / (max 1 amounts.length : ℕ))

/-- A best-window record of `bestUniqueWindow`. -/
structure WindowHit where
  l : ℕ
  r : ℕ
  uniq : ℕ
  minT : ℤ
  maxT : ℤ
  counterparties : List String
  amounts : List ℚ
deriving DecidableEq, Repr

/-- The `while (list[r].t - list[l].t > WINDOW_SEC) l++` advance of the
two-pointer window, structural on a fuel bounded below by the number of
remaining positions. -/
def advanceL (list : List Tx) (rT : ℤ) : ℕ → ℕ → ℕ
  | 0, l => l
  | fuel + 1, l =>
    if l < list.length ∧ WINDOW_SEC < rT - (list.getD l default).t
    then advanceL list rT fuel (l + 1) else l

/-- One candidate window record at right endpoint `r`, left endpoint `l`. -/
def windowHitAt (list : List Tx) (getCp : Tx → String) (l r : ℕ) : WindowHit :=
  let window := (list.take (r + 1)).drop l
  { l := l
    r := r
    uniq := (dedupFirst (window.map getCp)).length
    minT := (list.getD l default).t
    maxT := (list.getD r default).t
    counterparties := dedupFirst (window.map getCp)
    amounts := window.map (·.amount) }

/-- The main loop of `bestUniqueWindow` over right endpoints `r`,
structural on a fuel bounded below by the number of remaining endpoints. -/
def buwAux (list : List Tx) (getCp : Tx → String) :
    ℕ → ℕ → ℕ → Option WindowHit → Option WindowHit
  | 0, _, _, best => best
  | fuel + 1, r, l, best =>
    if r < list.length then
      let l' := advanceL list (list.getD r default).t list.length l
      let hit := windowHitAt list getCp l' r
      let best' :=
        if MIN_UNIQUE ≤ hit.uniq then
          match best with
          | none => some hit
          | some b =>
            if b.uniq < hit.uniq ∨ (hit.uniq = b.uniq ∧ hit.maxT - hit.minT < b.maxT - b.minT)
            then some hit else some b
        else best
      buwAux list getCp fuel (r + 1) l' best'
    else best

/-- `bestUniqueWindow`: sliding window with maximal unique-counterparty
count (ties by minimal span, first such window kept). -/
def bestUniqueWindow (list : List Tx) (getCp : Tx → String) : Option WindowHit :=
  if list.length = 0 then none else buwAux list getCp list.length 0 0 none

/-- Unique-sender count of a cash-out candidate: distinct senders of its
in-transactions that fall inside `[lo, hi]` and belong to the hub's
receiver set. -/
def cashU (g : Graph) (recvs : List String) (lo hi : ℤ) (cand : String) : ℕ :=
  (dedupFirst (((g.txIn cand).filter
    (fun tx => lo ≤ tx.t ∧ tx.t ≤ hi ∧ tx.sender_id ∈ recvs)).map (·.sender_id))).length

/-- The three guards a cash-out candidate must pass in the scan. -/
def cashOk (g : Graph) (recvs : List String) (lo hi : ℤ) (cand : String) : Bool :=
  MIN_UNIQUE ≤ (g.txIn cand).length
    ∧ MIN_UNIQUE ≤ cashU g recvs lo hi cand
    ∧ (g.txOut cand).length ≤ 2

/-- The cash-out scan of `detectSmurfing`: over all nodes in graph order,
keep the candidate with the strictly largest unique-sender count. -/
def cashoutScan (g : Graph) (recvs : List String) (lo hi : ℤ) : Option String :=
  (g.nodes.foldl
    (fun (acc : ℕ × Option String) cand =>
      if cashOk g recvs lo hi cand ∧ acc.1 < cashU g recvs lo hi cand
      then (cashU g recvs lo hi cand, some cand) else acc)
    (0, none)).2

/-- Everything `detectSmurfing` computes for one qualifying hub. -/
structure SmurfResult where
  bestIn : WindowHit
  bestOut : WindowHit
  minT : ℤ
  maxT : ℤ
  inCons : ℚ
  outCons : ℚ
  cashout : Option String
  ring : RingCandidate
deriving DecidableEq, Repr

/-- Member assembly for a smurfing ring: hub, sorted senders, sorted
receivers, then the cash-out node if present and not already a member. -/
def smurfMembers (hub : String) (bIn bOut : WindowHit) (cash : Option String) : List String :=
  match cash with
  | none => hub :: sortStr bIn.counterparties ++ sortStr bOut.counterparties
  | some c =>
    if c ∈ hub :: sortStr bIn.counterparties ++ sortStr bOut.counterparties
    then hub :: sortStr bIn.counterparties ++ sortStr bOut.counterparties
    else (hub :: sortStr bIn.counterparties ++ sortStr bOut.counterparties) ++ [c]

/-- Risk score of a smurfing ring: size, amount-consistency bonus,
cash-out bonus; clamped then rounded to one decimal. -/
def smurfRisk (bIn bOut : WindowHit) (inCons outCons : ℚ) (cash : Option String) : ℚ :=
  roundTo1 (clamp (70 + (6 / 5) * bIn.counterparties.length
    + (6 / 5) * bOut.counterparties.length + 6 * max inCons outCons
    + (if cash.isSome then 4 else 0)))

/-- The per-hub body of `detectSmurfing`: windows on both sides, 72-hour
union-span test, amount-consistency test, cash-out scan, member assembly
and risk score. -/
def smurfHub (g : Graph) (hub : String) : Option SmurfResult :=
  if (g.txIn hub).length < MIN_UNIQUE ∨ (g.txOut hub).length < MIN_UNIQUE then none
  else
    match bestUniqueWindow (g.txIn hub) (·.sender_id),
        bestUniqueWindow (g.txOut hub) (·.receiver_id) with
    | some bIn, some bOut =>
      if WINDOW_SEC < max bIn.maxT bOut.maxT - min bIn.minT bOut.minT then none
      else
        if ¬ (1 / 2 ≤ amountConsistency bIn.amounts (2 / 25)
            ∨ 9 / 20 ≤ amountConsistency bOut.amounts (2 / 25)) then none
        else
          some
            { bestIn := bIn
              bestOut := bOut
              minT := min bIn.minT bOut.minT
              maxT := max bIn.maxT bOut.maxT
              inCons := amountConsistency bIn.amounts (2 / 25)
              outCons := amountConsistency bOut.amounts (2 / 25)
              cashout := cashoutScan g bOut.counterparties (min bIn.minT bOut.minT)
                (max bIn.maxT bOut.maxT)
              ring :=
                { pattern_type := "smurfing"
                  member_accounts := smurfMembers hub bIn bOut
                    (cashoutScan g bOut.counterparties (min bIn.minT bOut.minT)
                      (max bIn.maxT bOut.maxT))
                  risk_score := smurfRisk bIn bOut
                    (amountConsistency bIn.amounts (2 / 25))
                    (amountConsistency bOut.amounts (2 / 25))
                    (cashoutScan g bOut.counterparties (min bIn.minT bOut.minT)
                      (max bIn.maxT bOut.maxT)) } }
    | _, _ => none

/-- Accumulated state of the smurfing detector. -/
structure SmurfState where
  rings : List RingCandidate
  evidence : List (String × String)
deriving Repr

/-- Evidence tags attached for one qualifying hub, in source order. -/
def smurfEvidence (hub : String) (res : SmurfResult) : List (String × String) :=
  [(hub, "smurfing_fan_in"), (hub, "smurfing_fan_out"), (hub, "temporal_72h")]
    ++ (res.bestIn.counterparties.flatMap (fun s => [(s, "smurfing_fan_in"), (s, "temporal_72h")]))
    ++ (res.bestOut.counterparties.flatMap (fun r => [(r, "smurfing_fan_out"), (r, "temporal_72h")]))
    ++ (match res.cashout with
        | none => []
        | some c => [(c, "smurfing_fan_out"), (c, "temporal_72h"), (c, "cash_out")])

/-- `detectSmurfing` of `src/lib/detect/shellChains.ts`: fold the per-hub
body over the nodes in graph insertion order. -/
def detectSmurfing (g : Graph) : SmurfState :=
  g.nodes.foldl
    (fun st hub =>
      match smurfHub g hub with
      | none => st
      | some res =>
        { rings := st.rings ++ [res.ring]
          evidence := st.evidence ++ smurfEvidence hub res })
    { rings := [], evidence := [] }

/-! ### Scorer (`src/lib/score.ts`) -/

/-- `AccountScoreState`. -/
structure ScoreState where
  score : ℚ
  patterns : List String
  ringId : Option String
deriving DecidableEq, Repr

/-- `initAccountScores`: every node starts at score 0, no tags, no ring. -/
def initAccountScores (nodes : List String) : List (String × ScoreState) :=
  nodes.map (fun n => (n, { score := 0, patterns := [], ringId := none }))

/-- FNV-1a-32 over the UTF-16 code units of `s` (ASCII here, so code
points), all arithmetic mod `2^32`. -/
def fnv1a32 (s : String) : ℕ :=
  s.data.foldl (fun h c => ((h ^^^ c.toNat) * 16777619) % 2 ^ 32) 2166136261

/-- `stableJitter01`: the hash mapped into `[0, 1)`. -/
def stableJitter01 (s : String) : ℚ := (fnv1a32 s : ℚ) / 2 ^ 32

/-- `adjustRingRisks` is a no-op kept for backward compatibility. -/
def adjustRingRisks (rings : List RingCandidate) : List RingCandidate := rings

/-- Best ring per account: highest risk wins, first such ring kept. -/
def bestRingFor (rings : List RingCandidate) (a : String) : Option RingCandidate :=
  rings.foldl
    (fun acc r =>
      if a ∈ r.member_accounts then
        match acc with
        | none => some r
        | some p => if p.risk_score < r.risk_score then some r else some p
      else acc)
    none

/-- Evidence lookup: the tag set accumulated for an account (first
occurrences kept, as in the per-account JS `Set`). -/
def evTags (evidence : List (String × String)) (a : String) : List String :=
  dedupFirst ((evidence.filter (fun p => p.1 = a)).map (·.2))

/-- The role-aware score formula of `applyWinModeScoring` for one account
with its best ring, pattern tag set and jitter. -/
def roleScore (ring : RingCandidate) (acct : String) (pats : List String) : ℚ :=
  let jitter := (stableJitter01 (acct ++ "|" ++ ring.pattern_type) - 1 / 2) * (4 / 5)
  if ring.pattern_type = "cycle" then ring.risk_score - 31 / 10 + jitter
  else if ring.pattern_type = "smurfing" then
    if ring.member_accounts.getD 0 "" = acct then ring.risk_score + 28 / 10
    else if "cash_out" ∈ pats then ring.risk_score + 17 / 10
    else if "smurfing_fan_out" ∈ pats then ring.risk_score - 59 / 10 + jitter
    else if "smurfing_fan_in" ∈ pats then ring.risk_score - 164 / 10 + jitter
    else ring.risk_score - 10 + jitter
  else if ring.pattern_type = "layered_shell" then
    if "cash_out" ∈ pats then ring.risk_score + 22 / 10
    else if "low_activity_shell" ∈ pats then ring.risk_score + 4 / 10 + jitter
    else if "pre_cashout" ∈ pats then ring.risk_score - 17 / 10 + jitter
    else if "source_funds" ∈ pats then ring.risk_score - 54 / 10 + jitter
    else ring.risk_score - 1 + jitter
  else ring.risk_score

/-- `applyWinModeScoring`: accounts without a ring keep their state;
others union in their evidence tags and get the role-aware score, rounded
to one decimal and clamped, with the ring id left null. -/
def applyWinModeScoring (rings : List RingCandidate) (evidence : List (String × String))
    (accountScores : List (String × ScoreState)) : List (String × ScoreState) :=
  accountScores.map (fun entry =>
    let acct := entry.1
    let st := entry.2
    match bestRingFor rings acct with
    | none => entry
    | some ring =>
      let pats := (evTags evidence acct).foldl
        (fun acc p => if p ∈ acc then acc else acc ++ [p]) st.patterns
      (acct,
        { score := clamp (roundTo1 (roleScore ring acct pats))
          patterns := pats
          ringId := none }))

/-! ### Output assembler (`src/lib/output.ts`, second half of `score.ts`) -/

/-- `FraudRing` of the output document. -/
structure FraudRing where
  ring_id : String
  pattern_type : String
  member_accounts : List String
  risk_score : ℚ
deriving DecidableEq, Repr

/-- `SuspiciousAccount` of the output document. -/
structure SuspiciousAccount where
  account_id : String
  suspicion_score : ℚ
  detected_patterns : List String
  ring_id : Option String
deriving DecidableEq, Repr

/-- The output summary block. -/
structure OutputSummary where
  total_accounts_analyzed : ℕ
  suspicious_accounts_flagged : ℕ
  fraud_rings_detected : ℕ
  processing_time_seconds : ℚ
deriving DecidableEq, Repr

/-- The output document. -/
structure OutputJSON where
  suspicious_accounts : List SuspiciousAccount
  fraud_rings : List FraudRing
  summary : OutputSummary
deriving DecidableEq, Repr

/-- The fixed evidence-tag vocabulary, in rank order. -/
def tagVocab : List String :=
  ["cycle_length_3", "cycle_length_4", "cycle_length_5", "cycle",
   "smurfing_fan_in", "smurfing_fan_out", "temporal_72h",
   "layered_shell_chain", "source_funds", "low_activity_shell",
   "pre_cashout", "cash_out"]

/-- `patternRank`: index in the vocabulary, 999 for unknown tags. -/
def patternRank (p : String) : ℕ := ((tagVocab.indexOf? p).map (·)).getD 999

/-- The comparator of `orderPatterns`: by rank, then lexicographic. -/
def patLe (a b : String) : Prop :=
  patternRank a < patternRank b ∨ (patternRank a = patternRank b ∧ strLe a b)

instance : DecidableRel patLe := fun a b => by unfold patLe; infer_instance

/-- `orderPatterns`: tags sorted by rank, ties lexicographic. -/
def orderPatterns (patterns : List String) : List String :=
  patterns.insertionSort patLe

/-- `patternPriority`: cycle 1, smurfing 2, layered_shell 3, else 9. -/
def patternPriority (pt : String) : ℕ :=
  if pt = "cycle" then 1 else if pt = "smurfing" then 2
  else if pt = "layered_shell" then 3 else 9

/-- `ringSignature`: pattern plus comma-joined sorted unique members. -/
def ringSignature (r : RingCandidate) : String :=
  r.pattern_type ++ "|" ++ joinSep "," (sortStr (dedupFirst r.member_accounts))

/-- The member key used by the deterministic ring comparator
(`"|"`-joined sorted unique members). -/
def memberKey (r : RingCandidate) : String :=
  joinSep "|" (sortStr (dedupFirst r.member_accounts))

/-- The deterministic ring order: pattern priority, then member key. -/
def ringLe (a b : RingCandidate) : Prop :=
  patternPriority a.pattern_type < patternPriority b.pattern_type
    ∨ (patternPriority a.pattern_type = patternPriority b.pattern_type
        ∧ strLe (memberKey a) (memberKey b))

instance : DecidableRel ringLe := fun a b => by unfold ringLe; infer_instance

/-- One step of the `bestBySig` JS `Map`: replace in place on strictly
higher risk, else append a fresh key. -/
def upsertSig (m : List (String × RingCandidate)) (r : RingCandidate) :
    List (String × RingCandidate) :=
  if m.any (fun kv => kv.1 = ringSignature r) then
    m.map (fun kv =>
      if kv.1 = ringSignature r
      then (if kv.2.risk_score < r.risk_score then (ringSignature r, r) else kv) else kv)
  else m ++ [(ringSignature r, r)]

/-- `String(n).padStart(3, "0")`. -/
def pad3 (n : ℕ) : String :=
  if n < 10 then "00" ++ toString n
  else if n < 100 then "0" ++ toString n
  else toString n

/-- Member emission: cycles sorted ascending after dedup, other patterns
in detector order with duplicates removed by first occurrence. -/
def emitMembers (r : RingCandidate) : List String :=
  if r.pattern_type = "cycle" then sortStr (dedupFirst r.member_accounts)
  else dedupFirst r.member_accounts

/-- The suspicious-account comparator: descending score, ascending id. -/
def suspLe (a b : SuspiciousAccount) : Prop :=
  b.suspicion_score < a.suspicion_score
    ∨ (a.suspicion_score = b.suspicion_score ∧ strLe a.account_id b.account_id)

instance : DecidableRel suspLe := fun a b => by unfold suspLe; infer_instance

/-- Best final ring per member: highest risk, ties by smaller ring id. -/
def memberBest (frs : List FraudRing) (a : String) : Option (String × ℚ) :=
  frs.foldl
    (fun acc fr =>
      if a ∈ fr.member_accounts then
        match acc with
        | none => some (fr.ring_id, fr.risk_score)
        | some prev =>
          if prev.2 < fr.risk_score ∨ (fr.risk_score = prev.2 ∧ strLt fr.ring_id prev.1)
          then some (fr.ring_id, fr.risk_score) else some prev
      else acc)
    none

/-- The parameter record of `buildDeterministicOutput`. -/
structure OutputParams where
  allNodes : List String
  rings : List RingCandidate
  accountScores : List (String × ScoreState)
  processingSeconds : ℚ

/-- The deduplicated, deterministically ordered ring list of the
assembler (`bestBySig` values sorted by the ring comparator). -/
def sortedRingList (rings : List RingCandidate) : List RingCandidate :=
  ((rings.foldl upsertSig []).map (·.2)).insertionSort ringLe

/-- The `fraud_rings` output list: dense `RING_NNN` ids in deterministic
order, members per `emitMembers`, risk rounded and clamped. -/
def assembleFraudRings (rings : List RingCandidate) : List FraudRing :=
  (sortedRingList rings).enum.map (fun ir =>
    { ring_id := "RING_" ++ pad3 (ir.1 + 1)
      pattern_type := ir.2.pattern_type
      member_accounts := emitMembers ir.2
      risk_score := clamp (roundTo1 ir.2.risk_score) })

/-- The per-account emission step of the suspicious-account loop. -/
def emitSusp (frs : List FraudRing) (av : String × ScoreState) : Option SuspiciousAccount :=
  if clamp (roundTo1 av.2.score) < 60 then none
  else if dedupFirst av.2.patterns = [] then none
  else
    some
      { account_id := av.1
        suspicion_score := clamp (roundTo1 av.2.score)
        detected_patterns := orderPatterns (dedupFirst av.2.patterns)
        ring_id := match memberBest frs av.1 with
          | some best => some best.1
          | none => av.2.ringId }

/-- The `suspicious_accounts` output list: filtered then sorted by
descending score, ties by ascending account id. -/
def assembleSuspicious (frs : List FraudRing)
    (accountScores : List (String × ScoreState)) : List SuspiciousAccount :=
  (accountScores.filterMap (emitSusp frs)).insertionSort suspLe

/-- `buildDeterministicOutput` of `src/lib/output.ts`. -/
def buildDeterministicOutput (p : OutputParams) : OutputJSON :=
  let fraud_rings := assembleFraudRings p.rings
  let suspicious_accounts := assembleSuspicious fraud_rings p.accountScores
  { suspicious_accounts := suspicious_accounts
    fraud_rings := fraud_rings
    summary :=
      { total_accounts_analyzed := p.allNodes.length
        suspicious_accounts_flagged := suspicious_accounts.length
        fraud_rings_detected := fraud_rings.length
        processing_time_seconds := roundTo3 p.processingSeconds } }

/-! ### Pipeline wiring (`src/app/api/analyze/route.ts`) -/

/-- The deterministic core of the `POST /api/analyze` pipeline: graph,
three detectors, evidence union, merge at Jaccard threshold 0.6, scoring,
assembly.  The wall-clock `processing_time_seconds` input is a parameter. -/
def analyzePipeline (txs : List Tx) (processingSeconds : ℚ) : OutputJSON :=
  let g := buildGraph txs
  let smurf := detectSmurfing g
  let cycles := detectCycles35 g
  let shells := detectShellChains g
  let rings0 := smurf.rings ++ cycles.rings ++ shells.rings
  let evidence := smurf.evidence ++ cycles.evidence ++ shells.evidence
  let rings1 := adjustRingRisks rings0
  let rings := mergeRings rings1 (3 / 5)
  let accountScores := applyWinModeScoring rings evidence (initAccountScores g.nodes)
  buildDeterministicOutput
    { allNodes := g.nodes
      rings := rings
      accountScores := accountScores
      processingSeconds := processingSeconds }

instance : Inhabited FraudRing := ⟨⟨"", "", [], 0⟩⟩

instance : Inhabited RingCandidate := ⟨⟨"", [], 0⟩⟩

/-! ### Claim-side comparison definitions (refinement claims)

These two definitions follow the wording of the specification / claims, to
be compared with the source-derived definitions above. -/

/-- Stated by the spec for the smurfing amount test: the fraction of
amounts lying within `± tol · median` of the median (for at least 6
amounts, else 0) — without the band floor of 1 the source applies. -/
def amountConsistencySpecClaim (amounts : List ℚ) (tol : ℚ) : ℚ :=
  if amounts.length < 6 then 0
  else
    let med := median amounts
    ((amounts.filter (fun x => |x - med| ≤ med * tol)).length : ℚ) / (amounts.length : ℚ)

/-- Stated by the claim for the cash-out choice: among qualifying
candidates, maximize the unique-sender count with ties broken by the
lexicographically smallest node id (modelled by scanning the nodes in
ascending lexicographic order and keeping the first maximum). -/
def cashoutSpecLex (g : Graph) (recvs : List String) (lo hi : ℤ) : Option String :=
  ((sortStr g.nodes).foldl
    (fun (acc : ℕ × Option String) cand =>
      if cashOk g recvs lo hi cand ∧ acc.1 < cashU g recvs lo hi cand
      then (cashU g recvs lo hi cand, some cand) else acc)
    (0, none)).2

/-! ### Concrete inputs used by witnesses and counterexamples -/

/-- A pure 3-cycle: `A → B → C → A` within 20 minutes. -/
def txsCyc : List Tx :=
  [⟨"A", "B", 50, 0⟩, ⟨"B", "C", 49, 600⟩, ⟨"C", "A", 48, 1200⟩]

/-- A 3-edge shell chain `S → X → Y → C`, hourly, constant amounts. -/
def txsShell : List Tx :=
  [⟨"S", "X", 1000, 0⟩, ⟨"X", "Y", 1000, 3600⟩, ⟨"Y", "C", 1000, 7200⟩]

/-- The ring the cycle detector emits on `txsCyc`. -/
def ringCyc : RingCandidate :=
  { pattern_type := "cycle", member_accounts := ["A", "B", "C"], risk_score := 993 / 10 }

/-- The graph of `txsShell`. -/
def gShell : Graph := buildGraph txsShell

/-- The ring the shell-chain detector emits on `txsShell`. -/
def shellRing : RingCandidate :=
  { pattern_type := "layered_shell", member_accounts := ["S", "X", "Y", "C"], risk_score := 88 }

/-- Sender names `S01 … S10`. -/
def sName (i : ℕ) : String := "S" ++ (if i < 10 then "0" else "") ++ toString i

/-- Receiver names `R01 … R10`. -/
def rName (i : ℕ) : String := "R" ++ (if i < 10 then "0" else "") ++ toString i

/-- A smurfing hub `H` with 10 senders and 10 receivers inside one hour,
whose 10 receivers all forward to both `Z1` and `A1` inside the union
window; `Z1` first appears before `A1` but sorts after it. -/
def txsSm : List Tx :=
  ((List.range 10).map (fun i => (⟨sName (i + 1), "H", 100, 1000 + i⟩ : Tx)))
    ++ ((List.range 10).map (fun i => (⟨"H", rName (i + 1), 100, 2000 + i⟩ : Tx)))
    ++ ((List.range 10).map (fun i => (⟨rName (i + 1), "Z1", 100, 1100 + i⟩ : Tx)))
    ++ ((List.range 10).map (fun i => (⟨rName (i + 1), "A1", 100, 1110 + i⟩ : Tx)))

/-- The graph of `txsSm`. -/
def gSm : Graph := buildGraph txsSm

/-- The smurfing ring the detector emits on `txsSm`. -/
def ringSm : RingCandidate :=
  { pattern_type := "smurfing"
    member_accounts :=
      ["H", "S01", "S02", "S03", "S04", "S05", "S06", "S07", "S08", "S09", "S10",
       "R01", "R02", "R03", "R04", "R05", "R06", "R07", "R08", "R09", "R10", "Z1"]
    risk_score := 100 }

/-- The fraud ring the full pipeline emits on `txsSm`. -/
def frSm : FraudRing :=
  { ring_id := "RING_001"
    pattern_type := "smurfing"
    member_accounts := ringSm.member_accounts
    risk_score := 100 }

/-- Three rings on which a second `mergeRings` pass merges further: the
base `{a,b,c}` absorbs `{a,b,c,d,e}` (Jaccard 3/5) and inherits its
members, which then overlap `{b,c,d,e}` (Jaccard 4/5) kept separate in
the first pass (Jaccard with the base was only 2/5). -/
def exC5 : List RingCandidate :=
  [⟨"cycle", ["a", "b", "c"], 1⟩,
   ⟨"cycle", ["a", "b", "c", "d", "e"], 9⟩,
   ⟨"cycle", ["b", "c", "d", "e"], 1⟩]

/-- Two same-pattern rings with disjoint members: no pair merges. -/
def exC5W : List RingCandidate :=
  [⟨"cycle", ["a"], 1⟩, ⟨"smurfing", ["b"], 2⟩]

/-- Assembler input with two cycle rings of the same signature and one
smurfing ring. -/
def pEx8 : OutputParams :=
  { allNodes := ["a", "b", "x"]
    rings := [⟨"cycle", ["b", "a"], 50⟩, ⟨"cycle", ["a", "b"], 60⟩, ⟨"smurfing", ["x"], 70⟩]
    accountScores := []
    processingSeconds := 0 }

/-- Assembler input with one account above and one below the score gate. -/
def pEx1 : OutputParams :=
  { allNodes := ["a", "b"]
    rings := []
    accountScores :=
      [("a", { score := 70, patterns := ["cycle"], ringId := none }),
       ("b", { score := 50, patterns := [], ringId := none })]
    processingSeconds := 0 }

/-! ### General lemmas -/

theorem foldl_preserve {α σ : Type} (P : σ → Prop) (f : σ → α → σ)
    (h : ∀ s a, P s → P (f s a)) : ∀ (l : List α) (s : σ), P s → P (l.foldl f s)
  | [], _, hs => hs
  | a :: l, s, hs => foldl_preserve P f h l (f s a) (h s a hs)

theorem foldl_preserve_mem {α σ : Type} (P : σ → Prop) (f : σ → α → σ) :
    ∀ (l : List α), (∀ s a, a ∈ l → P s → P (f s a)) → ∀ (s : σ), P s → P (l.foldl f s)
  | [], _, _, hs => hs
  | a :: l, h, s, hs =>
    foldl_preserve_mem P f l (fun s b hb => h s b (List.mem_cons_of_mem _ hb))
      (f s a) (h s a (List.mem_cons_self _ _) hs)

theorem insertOnce_mem {acc : List String} {x y : String} :
    y ∈ insertOnce acc x ↔ y ∈ acc ∨ y = x := by
  unfold insertOnce
  split
  · constructor
    · exact Or.inl
    · rintro (h | rfl) <;> assumption
  · simp

theorem insertOnce_nodup {acc : List String} {x : String} (h : acc.Nodup) :
    (insertOnce acc x).Nodup := by
  unfold insertOnce
  split
  · exact h
  · next hx => simp [List.nodup_append, h, hx]

theorem foldl_insertOnce_mem :
    ∀ (l acc : List String) (y : String), y ∈ l.foldl insertOnce acc ↔ y ∈ acc ∨ y ∈ l
  | [], acc, y => by simp
  | x :: l, acc, y => by
    rw [List.foldl_cons, foldl_insertOnce_mem l, insertOnce_mem]
    simp [or_assoc]

theorem dedupFirst_mem {l : List String} {y : String} : y ∈ dedupFirst l ↔ y ∈ l := by
  unfold dedupFirst
  rw [foldl_insertOnce_mem]
  simp

theorem dedupFirst_nodup (l : List String) : (dedupFirst l).Nodup :=
  foldl_preserve List.Nodup insertOnce (fun _ _ h => insertOnce_nodup h) l [] List.nodup_nil

theorem dedupFirst_eq_nil_iff {l : List String} : dedupFirst l = [] ↔ l = [] := by
  constructor
  · intro h
    cases l with
    | nil => rfl
    | cons x xs =>
      have hx : x ∈ dedupFirst (x :: xs) := dedupFirst_mem.mpr (List.mem_cons_self _ _)
      rw [h] at hx
      exact absurd hx (List.not_mem_nil x)
  · rintro rfl
    rfl

theorem dedupFirst_append_one (l : List String) (x : String) :
    dedupFirst (l ++ [x]) = insertOnce (dedupFirst l) x := by
  unfold dedupFirst
  rw [List.foldl_append]
  rfl

theorem dedupFirst_append_mem {l : List String} {x : String} (h : x ∈ l) :
    dedupFirst (l ++ [x]) = dedupFirst l := by
  rw [dedupFirst_append_one]
  unfold insertOnce
  rw [if_pos (dedupFirst_mem.mpr h)]

theorem foldl_insertOnce_of_nodup :
    ∀ (l acc : List String), (acc ++ l).Nodup → l.foldl insertOnce acc = acc ++ l
  | [], acc, _ => by simp
  | x :: l, acc, h => by
    have hx : x ∉ acc := by
      intro hmem
      exact (List.disjoint_of_nodup_append h) hmem (List.mem_cons_self _ _)
    rw [List.foldl_cons]
    have : insertOnce acc x = acc ++ [x] := by unfold insertOnce; rw [if_neg hx]
    rw [this, foldl_insertOnce_of_nodup l (acc ++ [x]) (by simpa using h)]
    simp

theorem dedupFirst_of_nodup {l : List String} (h : l.Nodup) : dedupFirst l = l := by
  unfold dedupFirst
  rw [foldl_insertOnce_of_nodup l [] (by simpa using h)]
  simp

/-! ### The string order -/

theorem charListLtb_cons (x y : Char) (xs ys : List Char) :
    charListLtb (x :: xs) (y :: ys)
      = if x < y then true else if y < x then false else charListLtb xs ys := rfl

theorem charListLtb_false_or : ∀ a b : List Char, charListLtb a b = false ∨ charListLtb b a = false
  | [], [] => Or.inl rfl
  | [], _ :: _ => Or.inr rfl
  | _ :: _, [] => Or.inl rfl
  | x :: xs, y :: ys => by
    rcases lt_trichotomy x y with hxy | hxy | hxy
    · right
      rw [charListLtb_cons, if_neg (lt_asymm hxy), if_pos hxy]
    · subst hxy
      rcases charListLtb_false_or xs ys with h | h
      · left
        rw [charListLtb_cons, if_neg (lt_irrefl x), if_neg (lt_irrefl x)]
        exact h
      · right
        rw [charListLtb_cons, if_neg (lt_irrefl x), if_neg (lt_irrefl x)]
        exact h
    · left
      rw [charListLtb_cons, if_neg (lt_asymm hxy), if_pos hxy]

theorem charListLtb_le_trans :
    ∀ a b c : List Char, charListLtb b a = false → charListLtb c b = false →
      charListLtb c a = false
  | [], _, c, _, _ => by cases c <;> rfl
  | _ :: _, [], _, h1, _ => by exact absurd h1 (by rw [charListLtb]; simp)
  | _ :: _, _ :: _, [], _, h2 => by exact absurd h2 (by rw [charListLtb]; simp)
  | x :: xs, y :: ys, z :: zs, h1, h2 => by
    rw [charListLtb_cons] at h1 h2 ⊢
    by_cases hyx : y < x
    · rw [if_pos hyx] at h1
      exact absurd h1 (by simp)
    rw [if_neg hyx] at h1
    by_cases hzy : z < y
    · rw [if_pos hzy] at h2
      exact absurd h2 (by simp)
    rw [if_neg hzy] at h2
    have hxz : x ≤ z := le_trans (not_lt.mp hyx) (not_lt.mp hzy)
    rw [if_neg (not_lt.mpr hxz)]
    by_cases hxz' : x < z
    · rw [if_pos hxz']
    · rw [if_neg hxz']
      have hezx : x = z := le_antisymm hxz (not_lt.mp hxz')
      have hexy : x = y := le_antisymm (not_lt.mp hyx)
        (le_trans (not_lt.mp hzy) (le_of_eq hezx.symm))
      have h1' : charListLtb ys xs = false := by
        rw [if_neg (by rw [← hexy]; exact lt_irrefl x)] at h1
        exact h1
      have h2' : charListLtb zs ys = false := by
        rw [if_neg (show ¬ y < z by rw [← hexy, ← hezx]; exact lt_irrefl x)] at h2
        exact h2
      exact charListLtb_le_trans xs ys zs h1' h2'

theorem charListLtb_antisymm :
    ∀ a b : List Char, charListLtb a b = false → charListLtb b a = false → a = b
  | [], [], _, _ => rfl
  | [], _ :: _, h1, _ => by exact absurd h1 (by rw [charListLtb]; simp)
  | _ :: _, [], _, h2 => by exact absurd h2 (by rw [charListLtb]; simp)
  | x :: xs, y :: ys, h1, h2 => by
    rw [charListLtb_cons] at h1 h2
    by_cases hxy : x < y
    · rw [if_pos hxy] at h1
      exact absurd h1 (by simp)
    rw [if_neg hxy] at h1
    by_cases hyx : y < x
    · rw [if_pos hyx] at h2
      exact absurd h2 (by simp)
    rw [if_neg hyx] at h2
    rw [if_neg hyx] at h1
    rw [if_neg hxy] at h2
    have hex : x = y := le_antisymm (not_lt.mp hyx) (not_lt.mp hxy)
    have hrec : xs = ys := charListLtb_antisymm xs ys h1 h2
    rw [hex, hrec]

theorem strLe_total : ∀ a b : String, strLe a b ∨ strLe b a := by
  intro a b
  rcases charListLtb_false_or a.data b.data with h | h
  · exact Or.inr h
  · exact Or.inl h

theorem strLe_trans : ∀ a b c : String, strLe a b → strLe b c → strLe a c := by
  intro a b c h1 h2
  exact charListLtb_le_trans a.data b.data c.data h1 h2

theorem strLe_antisymm : ∀ a b : String, strLe a b → strLe b a → a = b := by
  intro a b h1 h2
  have : b.data = a.data := charListLtb_antisymm b.data a.data h1 h2
  cases a
  cases b
  exact congrArg String.mk this.symm

theorem sorted_sortStr (l : List String) : List.Sorted strLe (sortStr l) :=
  @List.sorted_insertionSort String strLe _ ⟨strLe_total⟩ ⟨strLe_trans⟩ l

theorem sortStr_perm (l : List String) : List.Perm (sortStr l) l :=
  List.perm_insertionSort strLe l

/-! ### Cycle detector: shape of the emitted rings (C10) -/

theorem rotateBy_perm (s : ℕ) (l : List String) : List.Perm (rotateBy s l) l := by
  unfold rotateBy
  exact List.perm_append_comm.trans (by rw [List.take_append_drop])

theorem canonicalCycle_perm (l : List String) : List.Perm (canonicalCycle l) l := by
  unfold canonicalCycle
  refine foldl_preserve (fun best => List.Perm best l) _ ?_ _ _ (List.Perm.refl l)
  intro best s hbest
  dsimp only
  split
  · exact hbest
  · split
    · exact rotateBy_perm s l
    · exact hbest

theorem cycClose_rings_ok (g : Graph) (path : List String) (st : CycState)
    (hnd : path.Nodup) (h3 : 3 ≤ path.length) (h5 : path.length ≤ 5)
    (hst : ∀ r ∈ st.rings,
      r.pattern_type = "cycle" ∧ 3 ≤ r.member_accounts.length
        ∧ r.member_accounts.length ≤ 5 ∧ r.member_accounts.Nodup) :
    ∀ r ∈ (cycClose g path st).rings,
      r.pattern_type = "cycle" ∧ 3 ≤ r.member_accounts.length
        ∧ r.member_accounts.length ≤ 5 ∧ r.member_accounts.Nodup := by
  unfold cycClose
  split
  · exact hst
  · intro r hr
    rw [List.mem_append] at hr
    rcases hr with hr | hr
    · exact hst r hr
    · rw [List.mem_singleton] at hr
      subst hr
      have hperm : List.Perm (sortStr (canonicalCycle path)) path :=
        (sortStr_perm _).trans (canonicalCycle_perm path)
      refine ⟨rfl, ?_, ?_, ?_⟩
      · rw [hperm.length_eq]
        exact h3
      · rw [hperm.length_eq]
        exact h5
      · exact hperm.nodup_iff.mpr hnd

theorem cycDfs_rings_ok (g : Graph) (start : String) (rank : String → Option ℕ)
    (startIdx : ℕ) :
    ∀ (fuel : ℕ) (u : String) (depth : ℕ) (path visited : List String) (st : CycState),
      path.Nodup → path.length = depth → (∀ x ∈ path, x ∈ visited) →
      (∀ r ∈ st.rings,
        r.pattern_type = "cycle" ∧ 3 ≤ r.member_accounts.length
          ∧ r.member_accounts.length ≤ 5 ∧ r.member_accounts.Nodup) →
      ∀ r ∈ (cycDfs g start rank startIdx fuel u depth path visited st).rings,
        r.pattern_type = "cycle" ∧ 3 ≤ r.member_accounts.length
          ∧ r.member_accounts.length ≤ 5 ∧ r.member_accounts.Nodup := by
  intro fuel
  induction fuel with
  | zero => intro u depth path visited st _ _ _ hst; exact hst
  | succ fuel ih =>
    intro u depth path visited st hnd hlen hsub hst
    rw [cycDfs]
    split
    · exact hst
    · next hdepth =>
      refine foldl_preserve
        (fun acc : CycState => ∀ r ∈ acc.rings,
          r.pattern_type = "cycle" ∧ 3 ≤ r.member_accounts.length
            ∧ r.member_accounts.length ≤ 5 ∧ r.member_accounts.Nodup) _ ?_ _ _ hst
      intro acc v hacc
      dsimp only
      cases hrank : rank v with
      | none => exact hacc
      | some vi =>
        dsimp only
        split
        · exact hacc
        · split
          · split
            · next hd =>
              exact cycClose_rings_ok g path acc hnd (hlen ▸ hd.1) (hlen ▸ hd.2) hacc
            · exact hacc
          · split
            · exact hacc
            · next hvstart hvis =>
              apply ih v (depth + 1) (path ++ [v]) (v :: visited) acc
              · rw [List.nodup_append]
                refine ⟨hnd, List.nodup_singleton v, ?_⟩
                intro x hx hxv
                rw [List.mem_singleton] at hxv
                subst hxv
                exact hvis (hsub x hx)
              · rw [List.length_append, hlen]
                rfl
              · intro x hx
                rw [List.mem_append] at hx
                rcases hx with hx | hx
                · exact List.mem_cons_of_mem _ (hsub x hx)
                · rw [List.mem_singleton] at hx
                  subst hx
                  exact List.mem_cons_self _ _
              · exact hacc

theorem detectCycles35_rings_ok (g : Graph) :
    ∀ r ∈ (detectCycles35 g).rings,
      r.pattern_type = "cycle" ∧ 3 ≤ r.member_accounts.length
        ∧ r.member_accounts.length ≤ 5 ∧ r.member_accounts.Nodup := by
  unfold detectCycles35
  refine foldl_preserve
    (fun st : CycState => ∀ r ∈ st.rings,
      r.pattern_type = "cycle" ∧ 3 ≤ r.member_accounts.length
        ∧ r.member_accounts.length ≤ 5 ∧ r.member_accounts.Nodup) _ ?_ _ _ ?_
  · intro st start hst
    apply cycDfs_rings_ok g start _ _ 6 start 1 [start] [start] st
    · exact List.nodup_singleton start
    · rfl
    · intro x hx
      exact hx
    · exact hst
  · intro r hr
    exact absurd hr (List.not_mem_nil r)

/-- C10: every ring emitted by the cycle detector has between 3 and 5
pairwise-distinct member accounts (so neither a self-loop nor a two-node
back-and-forth ever yields a cycle ring). -/
theorem cycle_ring_members_three_to_five_distinct (g : Graph) :
    ∀ r ∈ (detectCycles35 g).rings,
      3 ≤ r.member_accounts.length ∧ r.member_accounts.length ≤ 5
        ∧ r.member_accounts.Nodup := by
  intro r hr
  have h := detectCycles35_rings_ok g r hr
  exact ⟨h.2.1, h.2.2.1, h.2.2.2⟩

/-- Witness for C10 at the concrete 3-cycle input. -/
theorem cycle_ring_members_three_to_five_distinct_witness :
    3 ≤ ringCyc.member_accounts.length ∧ ringCyc.member_accounts.length ≤ 5
      ∧ ringCyc.member_accounts.Nodup :=
  cycle_ring_members_three_to_five_distinct (buildGraph txsCyc) ringCyc (by decide)

/-! ### Shell-chain detector: acceptance properties (C3) -/

theorem chainAccept_intermediates {g : Graph} {path : List String} {span : ℤ}
    (h : chainAccept g path = some span) :
    ∀ i : ℕ, 1 ≤ i → i + 2 ≤ path.length →
      isLow g (path.getD i "") = true
        ∧ (g.inNeighbors (path.getD i "")).length = 1
        ∧ (g.outNeighbors (path.getD i "")).length = 1 := by
  intro i hi1 hi2
  unfold chainAccept at h
  split at h
  · next hall =>
    rw [List.all_eq_true] at hall
    have hmem : i ∈ List.range path.length := List.mem_range.mpr (by omega)
    have := hall i hmem
    rw [if_pos (by omega : 1 ≤ i ∧ i ≤ path.length - 2)] at this
    exact of_decide_eq_true this
  · exact absurd h (by simp)

theorem shellTry_rings_ok (g : Graph) (path : List String) (nextDepth : ℕ) (st : ShellState)
    (hst : ∀ r ∈ st.rings, r.pattern_type = "layered_shell"
      ∧ ∀ i : ℕ, 1 ≤ i → i + 2 ≤ r.member_accounts.length →
        isLow g (r.member_accounts.getD i "") = true
          ∧ (g.inNeighbors (r.member_accounts.getD i "")).length = 1
          ∧ (g.outNeighbors (r.member_accounts.getD i "")).length = 1) :
    ∀ r ∈ (shellTry g path nextDepth st).rings, r.pattern_type = "layered_shell"
      ∧ ∀ i : ℕ, 1 ≤ i → i + 2 ≤ r.member_accounts.length →
        isLow g (r.member_accounts.getD i "") = true
          ∧ (g.inNeighbors (r.member_accounts.getD i "")).length = 1
          ∧ (g.outNeighbors (r.member_accounts.getD i "")).length = 1 := by
  unfold shellTry
  split
  · exact hst
  · next span hacc =>
    split
    · exact hst
    · intro r hr
      rw [List.mem_append] at hr
      rcases hr with hr | hr
      · exact hst r hr
      · rw [List.mem_singleton] at hr
        subst hr
        exact ⟨rfl, chainAccept_intermediates hacc⟩

theorem shellDfs_rings_ok (g : Graph) :
    ∀ (fuel : ℕ) (u : String) (depthEdges : ℕ) (path visited : List String) (st : ShellState),
      (∀ r ∈ st.rings, r.pattern_type = "layered_shell"
        ∧ ∀ i : ℕ, 1 ≤ i → i + 2 ≤ r.member_accounts.length →
          isLow g (r.member_accounts.getD i "") = true
            ∧ (g.inNeighbors (r.member_accounts.getD i "")).length = 1
            ∧ (g.outNeighbors (r.member_accounts.getD i "")).length = 1) →
      ∀ r ∈ (shellDfs g fuel u depthEdges path visited st).rings,
        r.pattern_type = "layered_shell"
          ∧ ∀ i : ℕ, 1 ≤ i → i + 2 ≤ r.member_accounts.length →
            isLow g (r.member_accounts.getD i "") = true
              ∧ (g.inNeighbors (r.member_accounts.getD i "")).length = 1
              ∧ (g.outNeighbors (r.member_accounts.getD i "")).length = 1 := by
  intro fuel
  induction fuel with
  | zero => intro u depthEdges path visited st hst; exact hst
  | succ fuel ih =>
    intro u depthEdges path visited st hst
    rw [shellDfs]
    split
    · exact hst
    · split
      · exact hst
      · refine foldl_preserve
          (fun acc : ShellState => ∀ r ∈ acc.rings, r.pattern_type = "layered_shell"
            ∧ ∀ i : ℕ, 1 ≤ i → i + 2 ≤ r.member_accounts.length →
              isLow g (r.member_accounts.getD i "") = true
                ∧ (g.inNeighbors (r.member_accounts.getD i "")).length = 1
                ∧ (g.outNeighbors (r.member_accounts.getD i "")).length = 1)
          _ ?_ _ _ hst
        intro acc v hacc
        dsimp only
        split
        · exact hacc
        · split
          · exact hacc
          · split
            · exact hacc
            · apply ih
              split
              · exact shellTry_rings_ok g (path ++ [v]) (depthEdges + 1) acc hacc
              · exact hacc

theorem detectShellChains_rings_ok (g : Graph) :
    ∀ r ∈ (detectShellChains g).rings, r.pattern_type = "layered_shell"
      ∧ ∀ i : ℕ, 1 ≤ i → i + 2 ≤ r.member_accounts.length →
        isLow g (r.member_accounts.getD i "") = true
          ∧ (g.inNeighbors (r.member_accounts.getD i "")).length = 1
          ∧ (g.outNeighbors (r.member_accounts.getD i "")).length = 1 := by
  unfold detectShellChains
  refine foldl_preserve
    (fun st : ShellState => ∀ r ∈ st.rings, r.pattern_type = "layered_shell"
      ∧ ∀ i : ℕ, 1 ≤ i → i + 2 ≤ r.member_accounts.length →
        isLow g (r.member_accounts.getD i "") = true
          ∧ (g.inNeighbors (r.member_accounts.getD i "")).length = 1
          ∧ (g.outNeighbors (r.member_accounts.getD i "")).length = 1)
    _ ?_ _ _ ?_
  · intro st start hst
    exact shellDfs_rings_ok g 8 start 0 [start] [start] _ hst
  · intro r hr
    exact absurd hr (List.not_mem_nil r)

/-- C3 counterexample: on the chain `S → X → Y → C` the detector explores
the extension to `C` at edge-depth `3 ≥ 2` although `C` (total degree 1)
is outside the low-activity shell set, and even emits the chain as a ring;
under the claim such an extension would never be explored, so no emitted
ring could contain a non-low node at position `≥ 2`. -/
theorem shell_low_guard_claim_counterexample :
    ((detectShellChains gShell).rings.map (·.member_accounts)) = [["S", "X", "Y", "C"]]
      ∧ isLow gShell "C" = false := by
  constructor
  · decide
  · decide

/-- C3 (amended): the shell-chain DFS requires the low-activity test only
on the first hop; extensions at depth `≥ 2` are unconstrained, and instead
the acceptance test makes every intermediate node of an emitted ring
low-activity with in-degree 1 and out-degree 1. -/
theorem shell_intermediates_low_single_in_out (g : Graph) :
    ∀ r ∈ (detectShellChains g).rings, ∀ i : ℕ, 1 ≤ i → i + 2 ≤ r.member_accounts.length →
      isLow g (r.member_accounts.getD i "") = true
        ∧ (g.inNeighbors (r.member_accounts.getD i "")).length = 1
        ∧ (g.outNeighbors (r.member_accounts.getD i "")).length = 1 := by
  intro r hr
  exact (detectShellChains_rings_ok g r hr).2

/-- Witness for the amended C3 at the concrete shell chain. -/
theorem shell_intermediates_low_single_in_out_witness :
    isLow gShell "X" = true ∧ (gShell.inNeighbors "X").length = 1
      ∧ (gShell.outNeighbors "X").length = 1 :=
  shell_intermediates_low_single_in_out gShell shellRing (by decide) 1 (by decide) (by decide)

/-! ### Ring merger: structure of the output (C5, C9) -/

theorem bestOf_cons (b c : RingCandidate) (cs : List RingCandidate) :
    bestOf b (c :: cs) = bestOf (if b.risk_score < c.risk_score then c else b) cs := rfl

theorem bestOf_mem : ∀ (cs : List RingCandidate) (b : RingCandidate), bestOf b cs ∈ b :: cs
  | [], b => List.mem_singleton.mpr rfl
  | c :: cs, b => by
    rw [bestOf_cons]
    have ih := bestOf_mem cs (if b.risk_score < c.risk_score then c else b)
    rw [List.mem_cons] at ih
    rcases ih with ih | ih
    · rw [ih]
      split
      · exact List.mem_cons_of_mem _ (List.mem_cons_self _ _)
      · exact List.mem_cons_self _ _
    · exact List.mem_cons_of_mem _ (List.mem_cons_of_mem _ ih)

theorem bestOf_risk_le : ∀ (cs : List RingCandidate) (b : RingCandidate),
    ∀ x ∈ b :: cs, x.risk_score ≤ (bestOf b cs).risk_score
  | [], b, x, hx => by
    rw [List.mem_singleton] at hx
    subst hx
    exact le_refl _
  | c :: cs, b, x, hx => by
    rw [bestOf_cons]
    have hstep : ∀ y ∈ [b, c], y.risk_score ≤ (if b.risk_score < c.risk_score then c else b).risk_score := by
      intro y hy
      rcases List.mem_pair.mp hy with rfl | rfl
      · split
        · next hlt => exact le_of_lt hlt
        · exact le_refl _
      · split
        · exact le_refl _
        · next hlt => exact not_lt.mp hlt
    rcases List.mem_cons.mp hx with rfl | hx
    · exact le_trans (hstep x (by simp))
        (bestOf_risk_le cs _ _ (List.mem_cons_self _ _))
    · rcases List.mem_cons.mp hx with rfl | hx
      · exact le_trans (hstep x (by simp))
          (bestOf_risk_le cs _ _ (List.mem_cons_self _ _))
      · exact bestOf_risk_le cs _ x (List.mem_cons_of_mem _ hx)

theorem absorbs_pattern_eq {J : ℚ} {base r : RingCandidate} (h : absorbs J base r = true) :
    r.pattern_type = base.pattern_type := by
  unfold absorbs at h
  exact (of_decide_eq_true h).1.symm

theorem bestOf_pattern_eq {cs : List RingCandidate} {b : RingCandidate}
    (h : ∀ c ∈ cs, c.pattern_type = b.pattern_type) :
    (bestOf b cs).pattern_type = b.pattern_type := by
  rcases List.mem_cons.mp (bestOf_mem cs b) with he | he
  · rw [he]
  · exact h _ he

theorem classRepr_cons_eq_bestOf (base : RingCandidate) (consumed : List RingCandidate)
    (hpat : ∀ c ∈ consumed, c.pattern_type = base.pattern_type) :
    classRepr (base :: consumed) = bestOf base consumed := by
  unfold classRepr
  have hp := bestOf_pattern_eq hpat
  rcases hb : bestOf base consumed with ⟨p, m, ri⟩
  rw [hb] at hp
  dsimp at hp
  dsimp only
  rw [hb, hp]

theorem mergeRingsAux_eq_map (J : ℚ) :
    ∀ (fuel : ℕ) (xs : List RingCandidate),
      mergeRingsAux J fuel xs = (mergeClassesAux J fuel xs).map classRepr
  | 0, xs => by cases xs <;> rfl
  | _ + 1, [] => rfl
  | fuel + 1, base :: rest => by
    rw [mergeRingsAux, mergeClassesAux, List.map_cons,
      mergeRingsAux_eq_map J fuel (rest.filter (fun r => ! absorbs J base r))]
    rfl

theorem mergeClassesAux_join_perm (J : ℚ) :
    ∀ (fuel : ℕ) (xs : List RingCandidate), xs.length ≤ fuel →
      List.Perm (mergeClassesAux J fuel xs).flatten xs
  | 0, xs, h => by
    have hnil : xs = [] := List.length_eq_zero.mp (Nat.le_zero.mp h)
    subst hnil
    exact List.Perm.refl _
  | _ + 1, [], _ => List.Perm.refl _
  | fuel + 1, base :: rest, h => by
    have hrest : rest.length ≤ fuel := Nat.succ_le_succ_iff.mp h
    have hkept : (rest.filter (fun r => ! absorbs J base r)).length ≤ fuel :=
      le_trans (List.length_filter_le _ _) hrest
    have h1 := mergeClassesAux_join_perm J fuel (rest.filter (fun r => ! absorbs J base r)) hkept
    have h2 : List.Perm
        (rest.filter (absorbs J base)
          ++ (mergeClassesAux J fuel (rest.filter (fun r => ! absorbs J base r))).flatten)
        (rest.filter (absorbs J base) ++ rest.filter (fun r => ! absorbs J base r)) :=
      List.Perm.append_left _ h1
    have h3 := List.filter_append_perm (absorbs J base) rest
    rw [mergeClassesAux, List.flatten_cons, List.cons_append]
    exact (h2.trans h3).cons base

theorem mergeClassesAux_shape (J : ℚ) :
    ∀ (fuel : ℕ) (xs : List RingCandidate), ∀ cls ∈ mergeClassesAux J fuel xs,
      ∃ base consumed, cls = base :: consumed ∧ ∀ c ∈ consumed, absorbs J base c = true
  | 0, xs, _, h => by cases xs <;> exact absurd h (List.not_mem_nil _)
  | _ + 1, [], _, h => absurd h (List.not_mem_nil _)
  | fuel + 1, base :: rest, cls, h => by
    rw [mergeClassesAux, List.mem_cons] at h
    rcases h with h | h
    · exact ⟨base, rest.filter (absorbs J base), h, fun c hc => (List.mem_filter.mp hc).2⟩
    · exact mergeClassesAux_shape J fuel _ cls h

theorem mergeRingsAux_length (J : ℚ) :
    ∀ (fuel : ℕ) (xs : List RingCandidate), (mergeRingsAux J fuel xs).length ≤ xs.length
  | 0, xs => by cases xs <;> simp [mergeRingsAux]
  | _ + 1, [] => le_refl _
  | fuel + 1, base :: rest => by
    rw [mergeRingsAux]
    have := mergeRingsAux_length J fuel (rest.filter (fun r => ! absorbs J base r))
    have hf := List.length_filter_le (fun r => ! absorbs J base r) rest
    simp only [List.length_cons]
    omega

theorem classRepr_props {J : ℚ} {cls : List RingCandidate}
    (h : ∃ base consumed, cls = base :: consumed ∧ ∀ c ∈ consumed, absorbs J base c = true) :
    cls ≠ [] ∧ classRepr cls ∈ cls
      ∧ ∀ c ∈ cls, c.pattern_type = (classRepr cls).pattern_type
          ∧ c.risk_score ≤ (classRepr cls).risk_score := by
  obtain ⟨base, consumed, rfl, habs⟩ := h
  have hpat : ∀ c ∈ consumed, c.pattern_type = base.pattern_type :=
    fun c hc => absorbs_pattern_eq (habs c hc)
  have hrepr : classRepr (base :: consumed) = bestOf base consumed :=
    classRepr_cons_eq_bestOf base consumed hpat
  refine ⟨List.cons_ne_nil _ _, ?_, ?_⟩
  · rw [hrepr]
    exact bestOf_mem consumed base
  · intro c hc
    constructor
    · have hreprpat : (classRepr (base :: consumed)).pattern_type = base.pattern_type := rfl
      rw [hreprpat]
      rcases List.mem_cons.mp hc with rfl | hc
      · rfl
      · exact hpat c hc
    · rw [hrepr]
      exact bestOf_risk_le consumed base c hc

/-- C9: `mergeRings` never synthesizes ring content — its output is the
list of class representatives, each representative is (verbatim) a
maximum-risk ring of its merge class, the classes partition the input (so
every output ring is an element of the input, with its original pattern,
members and risk), the output is never longer than the input, and it is
non-empty whenever the input is. -/
theorem mergeRings_verbatim_from_input (x : List RingCandidate) (J : ℚ) :
    mergeRings x J = (mergeClasses x J).map classRepr
    ∧ List.Perm (mergeClasses x J).flatten x
    ∧ (∀ cls ∈ mergeClasses x J, cls ≠ [] ∧ classRepr cls ∈ cls
        ∧ ∀ c ∈ cls, c.pattern_type = (classRepr cls).pattern_type
            ∧ c.risk_score ≤ (classRepr cls).risk_score)
    ∧ (∀ r ∈ mergeRings x J, r ∈ x)
    ∧ (mergeRings x J).length ≤ x.length
    ∧ (x ≠ [] → mergeRings x J ≠ []) := by
  have heq := mergeRingsAux_eq_map J x.length x
  have hperm := mergeClassesAux_join_perm J x.length x (le_refl _)
  have hshape := mergeClassesAux_shape J x.length x
  refine ⟨heq, hperm, ?_, ?_, mergeRingsAux_length J x.length x, ?_⟩
  · intro cls hcls
    exact classRepr_props (hshape cls hcls)
  · intro r hr
    rw [show mergeRings x J = mergeRingsAux J x.length x from rfl, heq, List.mem_map] at hr
    obtain ⟨cls, hcls, hrepr⟩ := hr
    have hin : classRepr cls ∈ cls := (classRepr_props (hshape cls hcls)).2.1
    have : classRepr cls ∈ (mergeClasses x J).flatten :=
      List.mem_flatten.mpr ⟨cls, hcls, hin⟩
    rw [hrepr] at this
    exact hperm.mem_iff.mp this
  · intro hne
    cases x with
    | nil => exact absurd rfl hne
    | cons y ys =>
      intro hcontra
      rw [show mergeRings (y :: ys) J = mergeRingsAux J (ys.length + 1) (y :: ys) from rfl,
        mergeRingsAux] at hcontra
      exact List.cons_ne_nil _ _ hcontra

/-- Witness for C9 at a concrete ring list. -/
theorem mergeRings_verbatim_from_input_witness :
    mergeRings exC5 (3 / 5) ≠ [] :=
  (mergeRings_verbatim_from_input exC5 (3 / 5)).2.2.2.2.2 (by decide)

/-- C5 counterexample: at the pipeline threshold `J = 0.6`, a second
application of `mergeRings` merges further: the base `{a,b,c}` absorbs
`{a,b,c,d,e}` (Jaccard 3/5) and takes over its higher-risk member list,
which then has Jaccard 4/5 with the surviving ring `{b,c,d,e}`. -/
theorem mergeRings_idempotent_counterexample :
    mergeRings (mergeRings exC5 (3 / 5)) (3 / 5) ≠ mergeRings exC5 (3 / 5) := by
  decide

theorem mergeRingsAux_of_pairwise (J : ℚ) :
    ∀ (fuel : ℕ) (xs : List RingCandidate), xs.length ≤ fuel →
      List.Pairwise (fun a b => absorbs J a b = false) xs → mergeRingsAux J fuel xs = xs
  | 0, xs, h, _ => by
    have hnil : xs = [] := List.length_eq_zero.mp (Nat.le_zero.mp h)
    subst hnil
    rfl
  | _ + 1, [], _, _ => rfl
  | fuel + 1, base :: rest, h, hpw => by
    rw [List.pairwise_cons] at hpw
    have hcons : rest.filter (absorbs J base) = [] := by
      rw [List.filter_eq_nil_iff]
      intro a ha
      rw [hpw.1 a ha]
      simp
    have hkept : rest.filter (fun r => ! absorbs J base r) = rest := by
      rw [List.filter_eq_self]
      intro a ha
      rw [hpw.1 a ha]
      rfl
    rw [mergeRingsAux, hcons, hkept,
      mergeRingsAux_of_pairwise J fuel rest (Nat.succ_le_succ_iff.mp h) hpw.2]
    rfl

/-- C5 (corrected): `mergeRings` is not idempotent in general; a second
application can only merge rings of `mergeRings x J` that share a pattern
type and have member-set Jaccard `≥ J`, so idempotence holds exactly under
the proviso that no two distinct same-pattern rings of the first output
reach the threshold. -/
theorem mergeRings_idempotent_of_output_disjoint (x : List RingCandidate) (J : ℚ)
    (h : List.Pairwise
      (fun a b => a.pattern_type = b.pattern_type →
        jaccard a.member_accounts b.member_accounts < J) (mergeRings x J)) :
    mergeRings (mergeRings x J) J = mergeRings x J := by
  apply mergeRingsAux_of_pairwise J (mergeRings x J).length (mergeRings x J) (le_refl _)
  refine h.imp ?_
  intro a b hab
  unfold absorbs
  rw [decide_eq_false_iff_not]
  rintro ⟨hp, hj⟩
  exact absurd (hab hp) (not_lt.mpr hj)

/-- Witness for the amended C5 at a concrete ring list whose output has no
same-pattern pair at the threshold. -/
theorem mergeRings_idempotent_of_output_disjoint_witness :
    mergeRings (mergeRings exC5W (3 / 5)) (3 / 5) = mergeRings exC5W (3 / 5) :=
  mergeRings_idempotent_of_output_disjoint exC5W (3 / 5) (by decide)

/-! ### Smurfing detector: per-hub facts (C4, C6, C7) -/

theorem smurfHub_spec {g : Graph} {hub : String} {d : SmurfResult}
    (h : smurfHub g hub = some d) :
    (1 / 2 ≤ d.inCons ∨ 9 / 20 ≤ d.outCons)
    ∧ d.inCons = amountConsistency d.bestIn.amounts (2 / 25)
    ∧ d.outCons = amountConsistency d.bestOut.amounts (2 / 25)
    ∧ d.minT = min d.bestIn.minT d.bestOut.minT
    ∧ d.maxT = max d.bestIn.maxT d.bestOut.maxT
    ∧ d.cashout = cashoutScan g d.bestOut.counterparties d.minT d.maxT
    ∧ d.ring.pattern_type = "smurfing"
    ∧ d.ring.member_accounts = smurfMembers hub d.bestIn d.bestOut d.cashout := by
  unfold smurfHub at h
  split at h
  · exact absurd h (by simp)
  · split at h
    · next bIn bOut =>
      split at h
      · exact absurd h (by simp)
      · split at h
        · exact absurd h (by simp)
        · next hcons =>
          rw [Option.some.injEq] at h
          subst h
          rw [not_not] at hcons
          exact ⟨hcons, rfl, rfl, rfl, rfl, rfl, rfl, rfl⟩
    · exact absurd h (by simp)

theorem detectSmurfing_mem {g : Graph} {r : RingCandidate}
    (h : r ∈ (detectSmurfing g).rings) :
    ∃ hub d, smurfHub g hub = some d ∧ r = d.ring := by
  unfold detectSmurfing at h
  refine foldl_preserve
    (fun st : SmurfState => ∀ r' ∈ st.rings, ∃ hub d, smurfHub g hub = some d ∧ r' = d.ring)
    _ ?_ _ _ ?_ r h
  · intro st hub hst
    dsimp only
    cases hd : smurfHub g hub with
    | none => exact hst
    | some res =>
      intro r' hr'
      rw [List.mem_append] at hr'
      rcases hr' with hr' | hr'
      · exact hst r' hr'
      · rw [List.mem_singleton] at hr'
        exact ⟨hub, res, hd, hr'⟩
  · intro r' hr'
    exact absurd hr' (List.not_mem_nil _)

/-- C4 counterexample: the source's amount-consistency band is
`max(1, median·tol)`, not `median·tol`; with amounts
`[10,10,10,10,10,10.9]` the median is 10, the source counts all six
amounts (band 1) while the claimed formula counts five (band 0.8). -/
theorem amount_consistency_band_counterexample :
    amountConsistency [10, 10, 10, 10, 10, 109 / 10] (2 / 25) = 1
      ∧ amountConsistencySpecClaim [10, 10, 10, 10, 10, 109 / 10] (2 / 25) = 5 / 6
      ∧ amountConsistency [10, 10, 10, 10, 10, 109 / 10] (2 / 25)
          ≠ amountConsistencySpecClaim [10, 10, 10, 10, 10, 109 / 10] (2 / 25) :=
  ⟨by decide, by decide, by decide⟩

/-- C4 (corrected): for at least 6 amounts the consistency value is the
fraction of amounts within `± max(1, 0.08·median)` of the median (0 for
fewer than 6), and a smurfing hub ring is emitted only when the in-window
consistency is `≥ 0.50` or the out-window consistency is `≥ 0.45`. -/
theorem smurfing_amount_consistency_amended :
    (∀ amts : List ℚ, amountConsistency amts (2 / 25)
        = if amts.length < 6 then 0
          else (((amts.filter
              (fun x => |x - median amts| ≤ max 1 (median amts * (2 / 25)))).length : ℚ)
            / (amts.length : ℚ)))
    ∧ ∀ (g : Graph), ∀ r ∈ (detectSmurfing g).rings, ∃ hub d, smurfHub g hub = some d
        ∧ r = d.ring ∧ (1 / 2 ≤ d.inCons ∨ 9 / 20 ≤ d.outCons) := by
  constructor
  · intro amts
    unfold amountConsistency
    split
    · rfl
    · next hlen =>
      have hmax : max 1 amts.length = amts.length := Nat.max_eq_right (by omega)
      rw [hmax]
  · intro g r hr
    obtain ⟨hub, d, hd, hrd⟩ := detectSmurfing_mem hr
    exact ⟨hub, d, hd, hrd, (smurfHub_spec hd).1⟩

/-- Witness for the amended C4 at the concrete smurfing input. -/
theorem smurfing_amount_consistency_amended_witness :
    ∃ hub d, smurfHub gSm hub = some d ∧ ringSm = d.ring
      ∧ (1 / 2 ≤ d.inCons ∨ 9 / 20 ≤ d.outCons) :=
  smurfing_amount_consistency_amended.2 gSm ringSm (by decide)

/-! ### The cash-out scan (C6) -/

theorem cashOk_u_ge {g : Graph} {recvs : List String} {lo hi : ℤ} {c : String}
    (h : cashOk g recvs lo hi c = true) : MIN_UNIQUE ≤ cashU g recvs lo hi c := by
  unfold cashOk at h
  exact (of_decide_eq_true h).2.1

theorem cashScan_go (g : Graph) (recvs : List String) (lo hi : ℤ) :
    ∀ (l : List String) (u0 : ℕ) (copt : Option String) (pre : List String),
      (copt = none → u0 = 0 ∧ ∀ c ∈ pre, cashOk g recvs lo hi c = false) →
      (∀ c, copt = some c → u0 = cashU g recvs lo hi c ∧ cashOk g recvs lo hi c = true
        ∧ ∃ p1 p2, pre = p1 ++ c :: p2
            ∧ (∀ e ∈ p1, cashOk g recvs lo hi e = true → cashU g recvs lo hi e < u0)
            ∧ (∀ e ∈ p2, cashOk g recvs lo hi e = true → cashU g recvs lo hi e ≤ u0)) →
      ((l.foldl (fun acc cand =>
          if cashOk g recvs lo hi cand ∧ acc.1 < cashU g recvs lo hi cand
          then (cashU g recvs lo hi cand, some cand) else acc) (u0, copt)).2 = none →
        ∀ c ∈ pre ++ l, cashOk g recvs lo hi c = false)
      ∧ (∀ c, (l.foldl (fun acc cand =>
          if cashOk g recvs lo hi cand ∧ acc.1 < cashU g recvs lo hi cand
          then (cashU g recvs lo hi cand, some cand) else acc) (u0, copt)).2 = some c →
          (l.foldl (fun acc cand =>
            if cashOk g recvs lo hi cand ∧ acc.1 < cashU g recvs lo hi cand
            then (cashU g recvs lo hi cand, some cand) else acc) (u0, copt)).1
              = cashU g recvs lo hi c
          ∧ cashOk g recvs lo hi c = true
          ∧ ∃ p1 p2, pre ++ l = p1 ++ c :: p2
              ∧ (∀ e ∈ p1, cashOk g recvs lo hi e = true →
                  cashU g recvs lo hi e < cashU g recvs lo hi c)
              ∧ (∀ e ∈ p2, cashOk g recvs lo hi e = true →
                  cashU g recvs lo hi e ≤ cashU g recvs lo hi c))
  | [], u0, copt, pre, hnone, hsome => by
    rw [List.append_nil]
    simp only [List.foldl_nil]
    constructor
    · intro hn
      exact (hnone hn).2
    · intro c hc
      obtain ⟨hu, hok, p1, p2, hdec, hlt, hle⟩ := hsome c hc
      exact ⟨hu, hok, p1, p2, hdec,
        fun e he hoke => hu ▸ hlt e he hoke, fun e he hoke => hu ▸ hle e he hoke⟩
  | cand :: l, u0, copt, pre, hnone, hsome => by
    rw [List.foldl_cons,
      show pre ++ cand :: l = (pre ++ [cand]) ++ l by simp]
    by_cases hc : cashOk g recvs lo hi cand ∧ u0 < cashU g recvs lo hi cand
    · rw [if_pos hc]
      apply cashScan_go g recvs lo hi l (cashU g recvs lo hi cand) (some cand) (pre ++ [cand])
      · intro hcontra
        exact absurd hcontra (by simp)
      · intro c hc'
        rw [Option.some.injEq] at hc'
        subst hc'
        refine ⟨rfl, hc.1, pre, [], by simp, ?_, by simp⟩
        intro e he hoke
        cases copt with
        | none =>
          rw [(hnone rfl).2 e he] at hoke
          exact absurd hoke (by simp)
        | some c0 =>
          obtain ⟨hu0, _, p1, p2, hdec, hlt, hle⟩ := hsome c0 rfl
          subst hdec
          rw [List.mem_append, List.mem_cons] at he
          rcases he with he | he | he
          · exact lt_trans (hlt e he hoke) hc.2
          · subst he
            exact hu0 ▸ hc.2
          · exact lt_of_le_of_lt (hle e he hoke) hc.2
    · rw [if_neg hc]
      apply cashScan_go g recvs lo hi l u0 copt (pre ++ [cand])
      · intro hn
        obtain ⟨hu0, hall⟩ := hnone hn
        refine ⟨hu0, ?_⟩
        intro c hcm
        rw [List.mem_append, List.mem_singleton] at hcm
        rcases hcm with hcm | hcm
        · exact hall c hcm
        · subst hcm
          cases hok : cashOk g recvs lo hi c with
          | false => rfl
          | true =>
            exfalso
            apply hc
            refine ⟨hok, ?_⟩
            rw [hu0]
            have := cashOk_u_ge hok
            unfold MIN_UNIQUE at this
            omega
      · intro c hc'
        obtain ⟨hu0, hok, p1, p2, hdec, hlt, hle⟩ := hsome c hc'
        refine ⟨hu0, hok, p1, p2 ++ [cand], by rw [hdec]; simp, hlt, ?_⟩
        intro e he hoke
        rw [List.mem_append, List.mem_singleton] at he
        rcases he with he | he
        · exact hle e he hoke
        · subst he
          rw [not_and] at hc
          exact not_lt.mp (hc hoke)

theorem cashoutScan_spec (g : Graph) (recvs : List String) (lo hi : ℤ) :
    (cashoutScan g recvs lo hi = none → ∀ c ∈ g.nodes, cashOk g recvs lo hi c = false)
    ∧ ∀ c, cashoutScan g recvs lo hi = some c →
        cashOk g recvs lo hi c = true
        ∧ (∀ e ∈ g.nodes, cashOk g recvs lo hi e = true →
            cashU g recvs lo hi e ≤ cashU g recvs lo hi c)
        ∧ ∃ p1 p2, g.nodes = p1 ++ c :: p2
            ∧ ∀ e ∈ p1, cashOk g recvs lo hi e = true →
                cashU g recvs lo hi e < cashU g recvs lo hi c := by
  have hgo := cashScan_go g recvs lo hi g.nodes 0 none []
    (fun _ => ⟨rfl, fun c hc => absurd hc (List.not_mem_nil c)⟩)
    (fun c hc => absurd hc (by simp))
  rw [List.nil_append] at hgo
  unfold cashoutScan
  refine ⟨hgo.1, ?_⟩
  intro c hc
  obtain ⟨_, hok, p1, p2, hdec, hlt, hle⟩ := hgo.2 c hc
  refine ⟨hok, ?_, p1, p2, hdec, hlt⟩
  intro e he hoke
  rw [hdec, List.mem_append, List.mem_cons] at he
  rcases he with he | he | he
  · exact le_of_lt (hlt e he hoke)
  · subst he
    exact le_refl _
  · exact hle e he hoke

/-- C6 counterexample: on `txsSm` the hub `H` ties two qualifying cash-out
candidates (`Z1`, `A1`, 10 unique senders each); the detector keeps `Z1`,
the first in graph order, while the claimed lexicographic tie-break would
pick `A1 < Z1`. -/
theorem smurfing_cashout_lex_counterexample :
    (smurfHub gSm "H").map (fun d =>
        (d.cashout, cashoutSpecLex gSm d.bestOut.counterparties d.minT d.maxT))
      = some (some "Z1", some "A1")
    ∧ strLt "A1" "Z1" ∧ some "Z1" ≠ some "A1" :=
  ⟨by decide, by decide, by decide⟩

/-- C6 (corrected): for every qualifying hub, the cash-out member, when
present, is a node whose in-list has at least 10 unique senders from the
hub's receiver set inside `[minT, maxT]` and whose out-list has length at
most 2, chosen to maximize that unique-sender count — but with ties broken
by the earliest position in the graph's node list (first appearance in the
transaction sequence), not by lexicographically smallest id; when absent,
no node qualifies. -/
theorem smurfing_cashout_first_max (g : Graph) (hub : String) (d : SmurfResult)
    (h : smurfHub g hub = some d) :
    (d.cashout = none →
      ∀ c ∈ g.nodes, cashOk g d.bestOut.counterparties d.minT d.maxT c = false)
    ∧ ∀ c, d.cashout = some c →
        cashOk g d.bestOut.counterparties d.minT d.maxT c = true
        ∧ (∀ e ∈ g.nodes, cashOk g d.bestOut.counterparties d.minT d.maxT e = true →
            cashU g d.bestOut.counterparties d.minT d.maxT e
              ≤ cashU g d.bestOut.counterparties d.minT d.maxT c)
        ∧ ∃ p1 p2, g.nodes = p1 ++ c :: p2
            ∧ ∀ e ∈ p1, cashOk g d.bestOut.counterparties d.minT d.maxT e = true →
                cashU g d.bestOut.counterparties d.minT d.maxT e
                  < cashU g d.bestOut.counterparties d.minT d.maxT c := by
  have hcash := (smurfHub_spec h).2.2.2.2.2.1
  rw [hcash]
  exact cashoutScan_spec g d.bestOut.counterparties d.minT d.maxT

/-- Witness for the corrected C6 at the concrete smurfing input. -/
theorem smurfing_cashout_first_max_witness :
    ∃ d, smurfHub gSm "H" = some d
      ∧ ∀ c, d.cashout = some c →
          cashOk gSm d.bestOut.counterparties d.minT d.maxT c = true := by
  cases hd : smurfHub gSm "H" with
  | none => exact absurd hd (by decide)
  | some d =>
    exact ⟨d, rfl, fun c hc => ((smurfing_cashout_first_max gSm "H" d hd).2 c hc).1⟩

/-! ### Output assembler: the suspicious-account list (C1) -/

theorem suspLe_total : ∀ a b : SuspiciousAccount, suspLe a b ∨ suspLe b a := by
  intro a b
  rcases lt_trichotomy a.suspicion_score b.suspicion_score with h | h | h
  · exact Or.inr (Or.inl h)
  · rcases strLe_total a.account_id b.account_id with hs | hs
    · exact Or.inl (Or.inr ⟨h, hs⟩)
    · exact Or.inr (Or.inr ⟨h.symm, hs⟩)
  · exact Or.inl (Or.inl h)

theorem suspLe_trans : ∀ a b c : SuspiciousAccount, suspLe a b → suspLe b c → suspLe a c := by
  intro a b c hab hbc
  rcases hab with hab | ⟨hab, hab'⟩
  · rcases hbc with hbc | ⟨hbc, _⟩
    · exact Or.inl (lt_trans hbc hab)
    · exact Or.inl (hbc ▸ hab)
  · rcases hbc with hbc | ⟨hbc, hbc'⟩
    · exact Or.inl (hab ▸ hbc)
    · exact Or.inr ⟨hab.trans hbc, strLe_trans _ _ _ hab' hbc'⟩

theorem emitSusp_eq_some {frs : List FraudRing} {av : String × ScoreState}
    {sa : SuspiciousAccount} (h : emitSusp frs av = some sa) :
    sa.account_id = av.1 ∧ sa.suspicion_score = clamp (roundTo1 av.2.score)
      ∧ ¬ clamp (roundTo1 av.2.score) < 60 ∧ av.2.patterns ≠ [] := by
  unfold emitSusp at h
  split at h
  · exact absurd h (by simp)
  · split at h
    · exact absurd h (by simp)
    · next h60 hpat =>
      rw [Option.some.injEq] at h
      subst h
      exact ⟨rfl, rfl, h60, fun hc => hpat (by rw [hc]; rfl)⟩

theorem emitSusp_some_of {frs : List FraudRing} {av : String × ScoreState}
    (h60 : ¬ clamp (roundTo1 av.2.score) < 60) (hp : av.2.patterns ≠ []) :
    ∃ sa, emitSusp frs av = some sa ∧ sa.account_id = av.1 := by
  unfold emitSusp
  rw [if_neg h60, if_neg (fun hc => hp (dedupFirst_eq_nil_iff.mp hc))]
  exact ⟨_, rfl, rfl⟩

theorem assoc_nodup_eq :
    ∀ {l : List (String × ScoreState)}, (l.map Prod.fst).Nodup →
      ∀ {a : String} {st st' : ScoreState}, (a, st) ∈ l → (a, st') ∈ l → st = st' := by
  intro l
  induction l with
  | nil => intro _ a st st' h; exact absurd h (List.not_mem_nil _)
  | cons kv tl ih =>
    intro hnd a st st' h1 h2
    rw [List.map_cons, List.nodup_cons] at hnd
    rw [List.mem_cons] at h1 h2
    rcases h1 with h1 | h1
    · rcases h2 with h2 | h2
      · rw [← h1] at h2
        exact (Prod.mk.injEq _ _ _ _ |>.mp h2).2.symm
      · exfalso
        apply hnd.1
        rw [← h1]
        simpa using List.mem_map_of_mem Prod.fst h2
    · rcases h2 with h2 | h2
      · exfalso
        apply hnd.1
        rw [← h2]
        simpa using List.mem_map_of_mem Prod.fst h1
      · exact ih hnd.2 h1 h2

/-- C1: the assembler emits an account into `suspicious_accounts` iff its
final score (rounded to one decimal, clamped to `[0,100]`) is at least 60
and its pattern tag set is non-empty, and the emitted list is sorted by
descending suspicion score with ties broken by ascending account id. -/
theorem suspicious_accounts_iff_and_sorted (p : OutputParams)
    (hnd : (p.accountScores.map Prod.fst).Nodup) :
    (∀ a st, (a, st) ∈ p.accountScores →
      ((∃ sa ∈ (buildDeterministicOutput p).suspicious_accounts, sa.account_id = a)
        ↔ (60 ≤ clamp (roundTo1 st.score) ∧ st.patterns ≠ [])))
    ∧ List.Sorted suspLe (buildDeterministicOutput p).suspicious_accounts := by
  have hout : (buildDeterministicOutput p).suspicious_accounts
      = assembleSuspicious (assembleFraudRings p.rings) p.accountScores := rfl
  constructor
  · intro a st hmem
    constructor
    · rintro ⟨sa, hsa, hid⟩
      rw [hout] at hsa
      unfold assembleSuspicious at hsa
      rw [(List.perm_insertionSort suspLe _).mem_iff, List.mem_filterMap] at hsa
      obtain ⟨av, havmem, hav⟩ := hsa
      obtain ⟨hid', _, h60, hpat⟩ := emitSusp_eq_some hav
      have hav1 : av.1 = a := by rw [← hid', hid]
      have hst : av.2 = st := by
        apply assoc_nodup_eq hnd _ hmem
        rw [← hav1]
        exact havmem
      rw [← hst]
      exact ⟨not_lt.mp h60, hpat⟩
    · rintro ⟨h60, hp⟩
      obtain ⟨sa, hemit, hid⟩ :=
        @emitSusp_some_of (assembleFraudRings p.rings) (a, st) (not_lt.mpr h60) hp
      refine ⟨sa, ?_, hid⟩
      rw [hout]
      unfold assembleSuspicious
      rw [(List.perm_insertionSort suspLe _).mem_iff, List.mem_filterMap]
      exact ⟨(a, st), hmem, hemit⟩
  · rw [hout]
    unfold assembleSuspicious
    exact @List.sorted_insertionSort _ suspLe _ ⟨suspLe_total⟩ ⟨suspLe_trans⟩ _

/-- Witness for C1 at a concrete score table. -/
theorem suspicious_accounts_iff_and_sorted_witness :
    ∃ sa ∈ (buildDeterministicOutput pEx1).suspicious_accounts, sa.account_id = "a" :=
  ((suspicious_accounts_iff_and_sorted pEx1 (by decide)).1 "a"
    { score := 70, patterns := ["cycle"], ringId := none } (by decide)).mpr (by decide)

/-! ### Output assembler: ring canonicalization (C8) -/

theorem upsert_update_fst (k : String) (r : RingCandidate) (kv : String × RingCandidate) :
    (if kv.1 = k then (if kv.2.risk_score < r.risk_score then (k, r) else kv) else kv).1
      = kv.1 := by
  split
  · next h =>
    split
    · exact h.symm
    · rfl
  · rfl

theorem upsert_fold_spec :
    ∀ (rings : List RingCandidate) (processed : List RingCandidate)
      (m : List (String × RingCandidate)),
      (∀ kv ∈ m, kv.1 = ringSignature kv.2) →
      ((m.map Prod.fst).Nodup) →
      (∀ kv ∈ m, kv.2 ∈ processed
        ∧ ∀ r' ∈ processed, ringSignature r' = kv.1 → r'.risk_score ≤ kv.2.risk_score) →
      (∀ r' ∈ processed, ∃ kv ∈ m, kv.1 = ringSignature r') →
      (∀ kv ∈ rings.foldl upsertSig m, kv.1 = ringSignature kv.2)
      ∧ ((rings.foldl upsertSig m).map Prod.fst).Nodup
      ∧ (∀ kv ∈ rings.foldl upsertSig m, kv.2 ∈ processed ++ rings
          ∧ ∀ r' ∈ processed ++ rings, ringSignature r' = kv.1 →
              r'.risk_score ≤ kv.2.risk_score)
      ∧ (∀ r' ∈ processed ++ rings, ∃ kv ∈ rings.foldl upsertSig m, kv.1 = ringSignature r')
  | [], processed, m, hsig, hnd, hval, hcov => by
    rw [List.foldl_nil, List.append_nil]
    exact ⟨hsig, hnd, hval, hcov⟩
  | r :: rest, processed, m, hsig, hnd, hval, hcov => by
    rw [List.foldl_cons, show processed ++ r :: rest = (processed ++ [r]) ++ rest by simp]
    apply upsert_fold_spec rest (processed ++ [r]) (upsertSig m r)
    · -- keys are signatures
      intro kv' hkv'
      unfold upsertSig at hkv'
      split at hkv'
      · rw [List.mem_map] at hkv'
        obtain ⟨kv, hkv, rfl⟩ := hkv'
        by_cases h1 : kv.1 = ringSignature r
        · rw [if_pos h1]
          split
          · rfl
          · exact hsig kv hkv
        · rw [if_neg h1]
          exact hsig kv hkv
      · rw [List.mem_append, List.mem_singleton] at hkv'
        rcases hkv' with hkv' | hkv'
        · exact hsig kv' hkv'
        · rw [hkv']
    · -- keys stay nodup
      unfold upsertSig
      split
      · next hany =>
        have hfst : (List.map (fun kv =>
            if kv.1 = ringSignature r
            then (if kv.2.risk_score < r.risk_score then (ringSignature r, r) else kv)
            else kv) m).map Prod.fst = m.map Prod.fst := by
          rw [List.map_map]
          exact List.map_congr_left (fun kv _ => upsert_update_fst (ringSignature r) r kv)
        rw [hfst]
        exact hnd
      · next hany =>
        have hknot : ringSignature r ∉ m.map Prod.fst := by
          intro hk
          rw [List.mem_map] at hk
          obtain ⟨kv, hkv, hk⟩ := hk
          apply hany
          rw [List.any_eq_true]
          exact ⟨kv, hkv, decide_eq_true hk⟩
        rw [List.map_append]
        simp [List.nodup_append, hnd, hknot]
    · -- values come from the processed prefix and dominate their signature class
      intro kv' hkv'
      unfold upsertSig at hkv'
      split at hkv'
      · next hany =>
        rw [List.mem_map] at hkv'
        obtain ⟨kv, hkv, rfl⟩ := hkv'
        by_cases h1 : kv.1 = ringSignature r
        · rw [if_pos h1]
          by_cases h2 : kv.2.risk_score < r.risk_score
          · rw [if_pos h2]
            refine ⟨List.mem_append_right _ (List.mem_singleton_self r), ?_⟩
            intro r' hr' hsgr
            rw [List.mem_append, List.mem_singleton] at hr'
            rcases hr' with hr' | hr'
            · exact le_trans ((hval kv hkv).2 r' hr' (by rw [hsgr, h1])) (le_of_lt h2)
            · subst hr'
              exact le_refl _
          · rw [if_neg h2]
            refine ⟨List.mem_append_left _ (hval kv hkv).1, ?_⟩
            intro r' hr' hsgr
            rw [List.mem_append, List.mem_singleton] at hr'
            rcases hr' with hr' | hr'
            · exact (hval kv hkv).2 r' hr' hsgr
            · subst hr'
              exact not_lt.mp h2
        · rw [if_neg h1]
          refine ⟨List.mem_append_left _ (hval kv hkv).1, ?_⟩
          intro r' hr' hsgr
          rw [List.mem_append, List.mem_singleton] at hr'
          rcases hr' with hr' | hr'
          · exact (hval kv hkv).2 r' hr' hsgr
          · subst hr'
            exact absurd hsgr.symm h1
      · next hany =>
        rw [List.mem_append, List.mem_singleton] at hkv'
        rcases hkv' with hkv' | hkv'
        · refine ⟨List.mem_append_left _ (hval kv' hkv').1, ?_⟩
          intro r' hr' hsgr
          rw [List.mem_append, List.mem_singleton] at hr'
          rcases hr' with hr' | hr'
          · exact (hval kv' hkv').2 r' hr' hsgr
          · subst hr'
            exfalso
            apply hany
            rw [List.any_eq_true]
            exact ⟨kv', hkv', decide_eq_true hsgr.symm⟩
        · subst hkv'
          refine ⟨List.mem_append_right _ (List.mem_singleton_self r), ?_⟩
          intro r' hr' hsgr
          rw [List.mem_append, List.mem_singleton] at hr'
          rcases hr' with hr' | hr'
          · exfalso
            obtain ⟨kv, hkv, hkey⟩ := hcov r' hr'
            apply hany
            rw [List.any_eq_true]
            refine ⟨kv, hkv, decide_eq_true ?_⟩
            rw [hkey]
            simpa using hsgr
          · subst hr'
            exact le_refl _
    · -- every processed ring's signature has an entry
      intro r' hr'
      rw [List.mem_append, List.mem_singleton] at hr'
      unfold upsertSig
      split
      · next hany =>
        rcases hr' with hr' | hr'
        · obtain ⟨kv, hkv, hkey⟩ := hcov r' hr'
          refine ⟨_, List.mem_map_of_mem _ hkv, ?_⟩
          rw [upsert_update_fst]
          exact hkey
        · subst hr'
          rw [List.any_eq_true] at hany
          obtain ⟨kv, hkv, hkey⟩ := hany
          refine ⟨_, List.mem_map_of_mem _ hkv, ?_⟩
          rw [upsert_update_fst]
          exact of_decide_eq_true hkey
      · rcases hr' with hr' | hr'
        · obtain ⟨kv, hkv, hkey⟩ := hcov r' hr'
          exact ⟨kv, List.mem_append_left _ hkv, hkey⟩
        · subst hr'
          exact ⟨(ringSignature r', r'),
            List.mem_append_right _ (List.mem_singleton_self _), rfl⟩

theorem ringLe_total : ∀ a b : RingCandidate, ringLe a b ∨ ringLe b a := by
  intro a b
  rcases lt_trichotomy (patternPriority a.pattern_type) (patternPriority b.pattern_type)
    with h | h | h
  · exact Or.inl (Or.inl h)
  · rcases strLe_total (memberKey a) (memberKey b) with hs | hs
    · exact Or.inl (Or.inr ⟨h, hs⟩)
    · exact Or.inr (Or.inr ⟨h.symm, hs⟩)
  · exact Or.inr (Or.inl h)

theorem ringLe_trans : ∀ a b c : RingCandidate, ringLe a b → ringLe b c → ringLe a c := by
  intro a b c hab hbc
  rcases hab with hab | ⟨hab, hab'⟩
  · rcases hbc with hbc | ⟨hbc, _⟩
    · exact Or.inl (lt_trans hab hbc)
    · exact Or.inl (hbc ▸ hab)
  · rcases hbc with hbc | ⟨hbc, hbc'⟩
    · exact Or.inl (hab ▸ hbc)
    · exact Or.inr ⟨hab.trans hbc, strLe_trans _ _ _ hab' hbc'⟩

theorem sortedRingList_facts (rings : List RingCandidate) :
    (∀ r ∈ sortedRingList rings, r ∈ rings
        ∧ ∀ r' ∈ rings, ringSignature r' = ringSignature r → r'.risk_score ≤ r.risk_score)
    ∧ (∀ r' ∈ rings, ∃ r ∈ sortedRingList rings, ringSignature r = ringSignature r')
    ∧ List.Pairwise (fun a b => ringSignature a ≠ ringSignature b) (sortedRingList rings)
    ∧ List.Sorted ringLe (sortedRingList rings) := by
  have hspec := upsert_fold_spec rings [] []
    (fun kv h => absurd h (List.not_mem_nil _)) List.nodup_nil
    (fun kv h => absurd h (List.not_mem_nil _)) (fun r' h => absurd h (List.not_mem_nil _))
  rw [List.nil_append] at hspec
  obtain ⟨hsig, hnd, hval, hcov⟩ := hspec
  have hperm : List.Perm (sortedRingList rings) ((rings.foldl upsertSig []).map (·.2)) :=
    List.perm_insertionSort ringLe _
  refine ⟨?_, ?_, ?_, ?_⟩
  · intro r hr
    have hr' := hperm.mem_iff.mp hr
    rw [List.mem_map] at hr'
    obtain ⟨kv, hkv, rfl⟩ := hr'
    refine ⟨(hval kv hkv).1, ?_⟩
    intro r' hmem hsgr
    apply (hval kv hkv).2 r' hmem
    rw [hsgr, hsig kv hkv]
  · intro r' hmem
    obtain ⟨kv, hkv, hkey⟩ := hcov r' hmem
    refine ⟨kv.2, hperm.mem_iff.mpr (List.mem_map_of_mem _ hkv), ?_⟩
    rw [← hsig kv hkv]
    exact hkey
  · have hkeys : (rings.foldl upsertSig []).map Prod.fst
        = ((rings.foldl upsertSig []).map (·.2)).map ringSignature := by
      rw [List.map_map]
      exact List.map_congr_left (fun kv hkv => hsig kv hkv)
    rw [hkeys] at hnd
    have hpw : List.Pairwise (fun a b => ringSignature a ≠ ringSignature b)
        ((rings.foldl upsertSig []).map (·.2)) := List.pairwise_map.mp hnd
    exact (hperm.pairwise_iff (fun h heq => h heq.symm)).mpr hpw
  · exact @List.sorted_insertionSort _ ringLe _ ⟨ringLe_total⟩ ⟨ringLe_trans⟩ _

theorem assembleFraudRings_length (rings : List RingCandidate) :
    (assembleFraudRings rings).length = (sortedRingList rings).length := by
  simp [assembleFraudRings]

theorem assembleFraudRings_getElem (rings : List RingCandidate) (i : ℕ)
    (h : i < (assembleFraudRings rings).length) (h2 : i < (sortedRingList rings).length) :
    (assembleFraudRings rings)[i]
      = { ring_id := "RING_" ++ pad3 (i + 1)
          pattern_type := ((sortedRingList rings)[i]).pattern_type
          member_accounts := emitMembers ((sortedRingList rings)[i])
          risk_score := clamp (roundTo1 ((sortedRingList rings)[i]).risk_score) } := by
  simp only [assembleFraudRings, List.getElem_map, List.getElem_enum]

theorem sortStr_dedupFirst_idem (m : List String) :
    sortStr (dedupFirst (sortStr (dedupFirst m))) = sortStr (dedupFirst m) := by
  have h1 : (sortStr (dedupFirst m)).Nodup :=
    (sortStr_perm (dedupFirst m)).nodup_iff.mpr (dedupFirst_nodup m)
  rw [dedupFirst_of_nodup h1]
  exact (sorted_sortStr (dedupFirst m)).insertionSort_eq

/-- C8: the assembler keeps exactly one ring per signature
`<pattern>|<sorted-unique-members>` (one whose risk is maximal in its
signature class), orders the kept rings by pattern priority then ascending
member signature, assigns dense ids `RING_001, RING_002, …` in that order,
and consequently no two emitted cycle rings share the same sorted member
set. -/
theorem ring_canonicalization_deterministic (p : OutputParams) :
    (∀ r ∈ sortedRingList p.rings, r ∈ p.rings
        ∧ ∀ r' ∈ p.rings, ringSignature r' = ringSignature r → r'.risk_score ≤ r.risk_score)
    ∧ (∀ r' ∈ p.rings, ∃ r ∈ sortedRingList p.rings, ringSignature r = ringSignature r')
    ∧ List.Pairwise (fun a b => ringSignature a ≠ ringSignature b) (sortedRingList p.rings)
    ∧ List.Sorted ringLe (sortedRingList p.rings)
    ∧ (∀ (i : ℕ) (h : i < (buildDeterministicOutput p).fraud_rings.length),
        ((buildDeterministicOutput p).fraud_rings[i]).ring_id = "RING_" ++ pad3 (i + 1))
    ∧ (∀ (i j : ℕ) (hi : i < (buildDeterministicOutput p).fraud_rings.length)
        (hj : j < (buildDeterministicOutput p).fraud_rings.length),
        ((buildDeterministicOutput p).fraud_rings[i]).pattern_type = "cycle" →
        ((buildDeterministicOutput p).fraud_rings[j]).pattern_type = "cycle" →
        sortStr (dedupFirst ((buildDeterministicOutput p).fraud_rings[i]).member_accounts)
          = sortStr (dedupFirst ((buildDeterministicOutput p).fraud_rings[j]).member_accounts) →
        i = j) := by
  obtain ⟨hmax, hcov, hpw, hsorted⟩ := sortedRingList_facts p.rings
  refine ⟨hmax, hcov, hpw, hsorted, ?_, ?_⟩
  · intro i hb
    have h : i < (assembleFraudRings p.rings).length := hb
    have h2 : i < (sortedRingList p.rings).length := by
      rw [← assembleFraudRings_length]
      exact h
    exact congrArg FraudRing.ring_id (assembleFraudRings_getElem p.rings i h h2)
  · intro i j hib hjb hpib hpjb hmemb
    have hi : i < (assembleFraudRings p.rings).length := hib
    have hj : j < (assembleFraudRings p.rings).length := hjb
    have hi2 : i < (sortedRingList p.rings).length := by
      rw [← assembleFraudRings_length]
      exact hi
    have hj2 : j < (sortedRingList p.rings).length := by
      rw [← assembleFraudRings_length]
      exact hj
    have hgi := assembleFraudRings_getElem p.rings i hi hi2
    have hgj := assembleFraudRings_getElem p.rings j hj hj2
    have hpi : ((sortedRingList p.rings)[i]).pattern_type = "cycle" := by
      have : ((assembleFraudRings p.rings)[i]).pattern_type = "cycle" := hpib
      rw [hgi] at this
      exact this
    have hpj : ((sortedRingList p.rings)[j]).pattern_type = "cycle" := by
      have : ((assembleFraudRings p.rings)[j]).pattern_type = "cycle" := hpjb
      rw [hgj] at this
      exact this
    have hmem : sortStr (dedupFirst (emitMembers ((sortedRingList p.rings)[i])))
        = sortStr (dedupFirst (emitMembers ((sortedRingList p.rings)[j]))) := by
      have : sortStr (dedupFirst ((assembleFraudRings p.rings)[i]).member_accounts)
          = sortStr (dedupFirst ((assembleFraudRings p.rings)[j]).member_accounts) := hmemb
      rw [hgi, hgj] at this
      exact this
    rw [emitMembers, if_pos hpi, emitMembers, if_pos hpj,
      sortStr_dedupFirst_idem, sortStr_dedupFirst_idem] at hmem
    have hsg : ringSignature ((sortedRingList p.rings)[i])
        = ringSignature ((sortedRingList p.rings)[j]) := by
      unfold ringSignature
      rw [hpi, hpj, hmem]
    by_contra hne
    rcases Nat.lt_or_ge i j with hlt | hge
    · exact (List.pairwise_iff_getElem.mp hpw i j hi2 hj2 hlt) hsg
    · have hlt : j < i := by omega
      exact (List.pairwise_iff_getElem.mp hpw j i hj2 hi2 hlt) hsg.symm

/-- Witness for C8 at a concrete assembler input. -/
theorem ring_canonicalization_deterministic_witness :
    ((buildDeterministicOutput pEx8).fraud_rings.get ⟨0, by decide⟩).ring_id
      = "RING_" ++ pad3 (0 + 1) := by
  exact (ring_canonicalization_deterministic pEx8).2.2.2.2.1 0 (by decide)

/-! ### Smurfing member order through the pipeline (C7) -/

theorem mergeRings_mem {x : List RingCandidate} {J : ℚ} {r : RingCandidate}
    (hr : r ∈ mergeRings x J) : r ∈ x := by
  have heq := mergeRingsAux_eq_map J x.length x
  have hperm := mergeClassesAux_join_perm J x.length x (le_refl _)
  have hshape := mergeClassesAux_shape J x.length x
  rw [show mergeRings x J = mergeRingsAux J x.length x from rfl, heq, List.mem_map] at hr
  obtain ⟨cls, hcls, hrepr⟩ := hr
  have hin : classRepr cls ∈ cls := (classRepr_props (hshape cls hcls)).2.1
  have hfl : classRepr cls ∈ (mergeClassesAux J x.length x).flatten :=
    List.mem_flatten.mpr ⟨cls, hcls, hin⟩
  rw [hrepr] at hfl
  exact hperm.mem_iff.mp hfl

theorem assembleFraudRings_mem {rings : List RingCandidate} {fr : FraudRing}
    (h : fr ∈ assembleFraudRings rings) :
    ∃ r ∈ rings, fr.pattern_type = r.pattern_type ∧ fr.member_accounts = emitMembers r := by
  rw [assembleFraudRings, List.mem_map] at h
  obtain ⟨⟨i, r⟩, hir, rfl⟩ := h
  have hmem : r ∈ sortedRingList rings := by
    rw [List.enum_eq_zip_range] at hir
    exact (List.of_mem_zip hir).2
  exact ⟨r, ((sortedRingList_facts rings).1 r hmem).1, rfl, rfl⟩

theorem dedupFirst_smurfMembers (hub : String) (bIn bOut : WindowHit) (cash : Option String) :
    dedupFirst (smurfMembers hub bIn bOut cash)
      = dedupFirst ((hub :: sortStr bIn.counterparties ++ sortStr bOut.counterparties)
          ++ cash.toList) := by
  cases cash with
  | none =>
    have hnil : (none : Option String).toList = [] := rfl
    rw [smurfMembers, hnil, List.append_nil]
  | some c =>
    have hone : (some c).toList = [c] := rfl
    rw [smurfMembers, hone]
    split
    · next hmem => rw [dedupFirst_append_mem hmem]
    · rfl

/-- C7: every smurfing ring of the pipeline output lists the hub first,
then the in-window senders in ascending order, then the out-window
receivers in ascending order, then the cash-out node when one was found,
with duplicates removed preserving first occurrence — so no account
appears twice even when it plays several roles. -/
theorem smurfing_ring_member_order (txs : List Tx) (ts : ℚ) :
    ∀ fr ∈ (analyzePipeline txs ts).fraud_rings, fr.pattern_type = "smurfing" →
      ∃ hub d, smurfHub (buildGraph txs) hub = some d
        ∧ fr.member_accounts
            = dedupFirst ((hub :: sortStr d.bestIn.counterparties
                ++ sortStr d.bestOut.counterparties) ++ d.cashout.toList)
        ∧ List.Sorted strLe (sortStr d.bestIn.counterparties)
        ∧ List.Sorted strLe (sortStr d.bestOut.counterparties)
        ∧ fr.member_accounts.Nodup := by
  intro fr hfr hpat
  have hfr2 : fr ∈ assembleFraudRings (mergeRings
      ((detectSmurfing (buildGraph txs)).rings ++ (detectCycles35 (buildGraph txs)).rings
        ++ (detectShellChains (buildGraph txs)).rings) (3 / 5)) := hfr
  obtain ⟨r, hrmem, hrpat, hrmembers⟩ := assembleFraudRings_mem hfr2
  have hr0 := mergeRings_mem hrmem
  have hrsm : r.pattern_type = "smurfing" := hrpat.symm.trans hpat
  have hnotcyc : ¬ r.pattern_type = "cycle" := by
    rw [hrsm]; decide
  rw [List.mem_append] at hr0
  rcases hr0 with hr0 | hr0
  · rw [List.mem_append] at hr0
    rcases hr0 with hr0 | hr0
    · obtain ⟨hub, d, hd, hrd⟩ := detectSmurfing_mem hr0
      have hspec := smurfHub_spec hd
      refine ⟨hub, d, hd, ?_, sorted_sortStr _, sorted_sortStr _, ?_⟩
      · rw [hrmembers, emitMembers, if_neg hnotcyc, hrd, hspec.2.2.2.2.2.2.2,
          dedupFirst_smurfMembers]
      · rw [hrmembers, emitMembers, if_neg hnotcyc]
        exact dedupFirst_nodup _
    · have hcyc := (detectCycles35_rings_ok (buildGraph txs) r hr0).1
      rw [hrsm] at hcyc
      exact absurd hcyc (by decide)
  · have hshell := (detectShellChains_rings_ok (buildGraph txs) r hr0).1
    rw [hrsm] at hshell
    exact absurd hshell (by decide)

/-- Witness for C7 at the concrete smurfing input. -/
theorem smurfing_ring_member_order_witness :
    ∃ hub d, smurfHub (buildGraph txsSm) hub = some d
      ∧ frSm.member_accounts
          = dedupFirst ((hub :: sortStr d.bestIn.counterparties
              ++ sortStr d.bestOut.counterparties) ++ d.cashout.toList)
      ∧ List.Sorted strLe (sortStr d.bestIn.counterparties)
      ∧ List.Sorted strLe (sortStr d.bestOut.counterparties)
      ∧ frSm.member_accounts.Nodup :=
  smurfing_ring_member_order txsSm 0 frSm (by decide) (by decide)

end FFE
